import Mathlib

/-! Formal model of the csbl/reconstructor package: the identifier utilities of
`utils.py`, the draft/gap-fill functions of `_funcs.py` and the orchestration
of `build.py`, together with the parts of the cobra library these functions
rely on (reaction lists, the history manager behind `with model`, the solver
interface), embedded explicitly so their behaviour is part of the model. -/

/-- Embeds the ASCII fragment of the regex word-character class used by
`utils.is_valid_sbml_id` and `utils.sanitize_sbml_id`: letters, digits and the
underscore. -/
def isWordChar (c : Char) : Bool := c.isAlpha || c.isDigit || c = '_'

/-- Embeds `utils.is_valid_sbml_id`: the string matches the anchored pattern
underscore-or-letter followed by word characters only. -/
def is_valid_sbml_id (s : String) : Bool :=
  match s.data with
  | [] => false
  | c :: cs => (c.isAlpha || c = '_') && cs.all isWordChar

/-- Collapses every maximal run of non-word characters into one underscore:
the effect of the re.sub call in `utils.sanitize_sbml_id` (pattern: one or
more non-word characters, replacement: underscore). The boolean records
whether we are inside such a run. -/
def collapseNonWord : Bool → List Char → List Char
  | _, [] => []
  | inRun, c :: cs =>
    if isWordChar c then c :: collapseNonWord false cs
    else if inRun then collapseNonWord true cs
    else '_' :: collapseNonWord true cs

/-- Embeds `utils.sanitize_sbml_id`: prepend an underscore when the string
starts with a digit, then collapse runs of invalid characters. -/
def sanitize_sbml_id (s : String) : String :=
  let cs := s.data
  let cs := match cs with
    | c :: _ => if c.isDigit then '_' :: cs else cs
    | [] => cs
  ⟨collapseNonWord false cs⟩

/-- cobra.Metabolite: the fields the reconstructor code reads. -/
structure Metabolite where
  id : String
  name : String
  compartment : String
deriving DecidableEq, Repr

/-- cobra.Reaction, restricted to the fields the reconstructor code reads and
writes. Bounds are rationals (Python floats, none of the code's claims hinge
on rounding); `mets` is the stoichiometry as (metabolite, signed coefficient)
pairs; `gpr` is the gene-reaction rule, which this code base only ever builds
as a disjunction, embedded as the list of its gene ids in order; `sbo` is the
value of the annotation at key sbo, the empty string when absent. -/
structure Reaction where
  id : String
  name : String
  lb : ℚ
  ub : ℚ
  mets : List (Metabolite × ℚ)
  gpr : List String
  sbo : String
deriving DecidableEq, Repr

inductive Direction | max | min
deriving DecidableEq, Repr

/-- An optlang objective as this code uses it: a direction and a linear form
over the forward and reverse flux variables of each reaction, recorded as
(reaction id, forward coefficient, reverse coefficient). Setting the
objective to a reaction r gives coefficients (1, -1) on r, since the net flux
is forward minus reverse. -/
structure Objective where
  direction : Direction
  coeffs : List (String × ℚ × ℚ)
deriving DecidableEq, Repr

/-- A constraint `find_reactions` adds directly on the underlying solver: a
two-sided bound on the flux expression of one reaction. The bounds are
Options: none embeds the float NaN that `slim_optimize` yields when the status
is not optimal. -/
structure SolverConstraint where
  rxnId : String
  lb : Option ℚ
  ub : Option ℚ
deriving DecidableEq, Repr

/-- cobra.Model, restricted to what the reconstructor code observes: the
reaction list (a cobra DictList keeps insertion order and unique ids), the
gene ids, the constraints added directly on the solver (invisible to the
history manager), and the objective. The metabolite list is derived from the
reactions in first-appearance order, as cobra populates it. -/
structure Model where
  id : String
  reactions : List Reaction
  genes : List String
  extraConstraints : List SolverConstraint
  objective : Objective
deriving DecidableEq, Repr

/-- cobra DictList.has_id on a reaction list. -/
def hasId (l : List Reaction) (i : String) : Bool := l.any (fun r => r.id == i)

def Model.hasRxnId (m : Model) (i : String) : Bool := hasId m.reactions i

/-- cobra DictList.get_by_id: the (first) reaction carrying the id. -/
def Model.getRxn (m : Model) (i : String) : Option Reaction :=
  m.reactions.find? (fun r => r.id == i)

/-- Apply an update to every reaction carrying the given id (with unique ids,
to the one reaction carrying it), leaving the rest alone: the shape of every
in-place reaction edit the code performs through get_by_id. -/
def updRxn (t : String) (g : Reaction → Reaction) (l : List Reaction) : List Reaction :=
  l.map (fun x => if x.id == t then g x else x)

/-- Insert a metabolite unless one with its id is already present (cobra
DictList identity is by id). -/
def insertMet (acc : List Metabolite) (cpd : Metabolite) : List Metabolite :=
  if acc.any (fun x => x.id == cpd.id) then acc else acc ++ [cpd]

/-- The metabolites a reaction list mentions, in first appearance order. -/
def metsOfList (l : List Reaction) : List Metabolite :=
  l.foldl (fun acc r => r.mets.foldl (fun a p => insertMet a p.1) acc) []

/-- cobra model.metabolites: the union of the reactions' metabolites, in first
appearance order. -/
def Model.metabolitesList (m : Model) : List Metabolite := metsOfList m.reactions

/-- Append the gene ids not already present, keeping order of first
appearance. -/
def addGenes (gs : List String) (new : List String) : List String :=
  new.foldl (fun acc g => if acc.contains g then acc else acc ++ [g]) gs

/-- cobra Model.add_reactions: reactions whose id already exists in the model
are dropped (cobra logs a warning for each); the survivors are appended and
their rule genes joined into the model's gene list. The duplicate filter
tests against the model as it was when the call started, exactly as cobra's
batch filter closure does. -/
def Model.addReactions (m : Model) (rs : List Reaction) : Model :=
  let pruned := rs.filter (fun r => !(m.hasRxnId r.id))
  { m with reactions := m.reactions ++ pruned,
           genes := addGenes m.genes (pruned.foldr (fun r acc => r.gpr ++ acc) []) }

/-- The step argument of `find_reactions` and `gapfill_model` (typed
Literal 1 2 in the source). -/
inductive Step | one | two
deriving DecidableEq, Repr

/-- One entry of rxn_db, the defaultdict built by `genes_to_rxns`: a reaction
id and the gene ids discovered for it, in discovery order. A Python dict is an
association list with distinct keys. -/
abbrev RxnDb := List (String × List String)

/-- Set the gene-reaction rule of the reaction with the given id, as cobra
reactions.get_by_id followed by assigning gene_reaction_rule does. -/
def Model.setGpr (m : Model) (i : String) (gs : List String) : Model :=
  { m with reactions := updRxn i (fun r => { r with gpr := gs }) m.reactions }

/-- The body of the reaction loop in `_funcs.create_model`: a key present in
the universal model contributes a copy whose rule is then overwritten; an
absent key contributes nothing. -/
def createStep (universal : Model) (acc : Model) (p : String × List String) : Model :=
  match universal.getRxn p.1 with
  | none => acc
  | some r => (acc.addReactions [r]).setGpr p.1 p.2

/-- Embeds `_funcs.create_model`: a fresh model first receives every gene of
rxn_db (deduplicated by id, in order); then, for every rxn_db key present in
the universal model, a copy of that universal reaction is added and its rule
is set to the OR of the genes recorded under the key. Keys absent from the
universal model are skipped with no error. -/
def create_model (rxnDb : RxnDb) (universal : Model) (modelId : String) : Model :=
  let m0 : Model :=
    { id := modelId, reactions := [],
      genes := addGenes [] (rxnDb.foldr (fun p acc => p.2 ++ acc) []),
      extraConstraints := [], objective := ⟨.max, []⟩ }
  rxnDb.foldl (createStep universal) m0

/-- Collect copies of the universal reactions named by new_rxn_ids, skipping
the objective id; a missing id raises KeyError at the first offender, before
the model is touched, exactly like the loop in `_funcs.gapfill_model`. -/
def collectCopies (universal : Model) (obj : String) : List String → Except String (List Reaction)
  | [] => .ok []
  | i :: rest =>
    if i == obj then collectCopies universal obj rest
    else match universal.getRxn i with
      | some r => (collectCopies universal obj rest).map (fun l => r :: l)
      | none => .error "KeyError"

/-- The exchange reaction cobra model.add_boundary builds for a metabolite:
id EX_ plus the metabolite id, stoichiometry -1, bounds -1000 and 1000, the
exchange sbo term; `gapfill_model` then sets its name to the metabolite name
followed by " exchange". -/
def mkExchange (cpd : Metabolite) : Reaction :=
  { id := "EX_" ++ cpd.id, name := cpd.name ++ " exchange", lb := -1000, ub := 1000,
    mets := [(cpd, -1)], gpr := [], sbo := "SBO:0000627" }

/-- The exchange-creating loop of `_funcs.gapfill_model`: walk the given
metabolites; for an extracellular one whose EX_ reaction is missing from the
model accumulated so far, append that exchange reaction. -/
def addExchangesFrom (cpds : List Metabolite) (m : Model) : Model :=
  cpds.foldl (fun acc cpd =>
    if cpd.compartment == "extracellular" then
      (if acc.hasRxnId ("EX_" ++ cpd.id) then acc
       else { acc with reactions := acc.reactions ++ [mkExchange cpd] })
    else acc) m

/-- The loop iterates over model.metabolites; adding an exchange introduces no
new metabolite, so the iteration list is the metabolite list at loop entry. -/
def addExchanges (m : Model) : Model := addExchangesFrom m.metabolitesList m

/-- Embeds `_funcs.gapfill_model`. On step one the objective reaction is
copied from the universal model first (KeyError when absent); then the new
reactions other than the objective are copied (KeyError on a missing id);
cobra add_reactions drops ids the model already carries; the objective is set
to maximizing the objective reaction's flux (KeyError when the model lacks
it); finally missing exchange reactions are created for extracellular
metabolites. The first stage, fetching the objective copy on step one as the
source does before the new-id loop, follows here. -/
def objBase (universal : Model) (obj : String) : Step → Except String (List Reaction)
  | .one =>
    match universal.getRxn obj with
    | some r => .ok [r]
    | none => .error "KeyError"
  | .two => .ok []

def gapfill_model (model universal : Model) (newRxnIds : List String) (obj : String)
    (step : Step) : Except String Model :=
  match objBase universal obj step with
  | .error e => .error e
  | .ok base =>
    match collectCopies universal obj newRxnIds with
    | .error e => .error e
    | .ok news =>
      if (model.addReactions (base ++ news)).hasRxnId obj then
        .ok (addExchanges
          { model.addReactions (base ++ news) with objective := ⟨.max, [(obj, 1, -1)]⟩ })
      else .error "KeyError"

/-- One entry of the cobra HistoryManager stack, covering the tracked
operations `find_reactions` performs inside its with-block: reaction removal
and addition, bound assignment through the resettable setters, gene-list
growth from add_reactions, objective assignment. Raw solver manipulation
(solver.add of a constraint, Objective.set_linear_coefficients) registers no
entry — those calls bypass cobra and talk to optlang directly. -/
inductive UndoOp where
  | addRxns (rs : List Reaction)
  | subRxns (ids : List String)
  | setLb (i : String) (old : ℚ)
  | setUb (i : String) (old : ℚ)
  | setGenes (old : List String)
  | setObjective (old : Objective)
deriving DecidableEq, Repr

def UndoOp.apply : UndoOp → Model → Model
  | .addRxns rs, m => { m with reactions := m.reactions ++ rs }
  | .subRxns ids, m => { m with reactions := m.reactions.filter (fun r => !(ids.contains r.id)) }
  | .setLb i old, m => { m with reactions := updRxn i (fun r => { r with lb := old }) m.reactions }
  | .setUb i old, m => { m with reactions := updRxn i (fun r => { r with ub := old }) m.reactions }
  | .setGenes old, m => { m with genes := old }
  | .setObjective old, m => { m with objective := old }

/-- Unwind a history, newest entry first, as HistoryManager.reset does when
the with-block exits — on success and on a raised error alike. -/
def rollback (h : List UndoOp) (m : Model) : Model := h.foldl (fun s u => u.apply s) m

/-- The model reaction ids `find_reactions` counts as original: all of them,
except that the objective reaction is skipped unless file_type is 3. -/
def origIdsOf (model : Model) (obj : String) (ft : Nat) : List String :=
  (model.reactions.filter (fun r => !(r.id == obj && ft != 3))).map (fun r => r.id)

/-- The reactions `find_reactions` copies from the model into the bag:
everything except the objective reaction, unless file_type is 3. -/
def addListOf (model : Model) (obj : String) (ft : Nat) : List Reaction :=
  model.reactions.filter (fun r => !(r.id == obj) || ft == 3)

/-- The ids `find_reactions` removes from the bag: original model ids the bag
also carries. -/
def removeIdsOf (model bag : Model) (obj : String) (ft : Nat) : List String :=
  (origIdsOf model obj ft).filter (fun i => bag.hasRxnId i)

/-- The bag reactions surviving the removal. -/
def keptOf (model bag : Model) (obj : String) (ft : Nat) : List Reaction :=
  bag.reactions.filter (fun r => !((removeIdsOf model bag obj ft).contains r.id))

/-- The bag reactions the removal takes out (cobra's undo re-adds these at the
end of the list). -/
def removedOf (model bag : Model) (obj : String) (ft : Nat) : List Reaction :=
  bag.reactions.filter (fun r => (removeIdsOf model bag obj ft).contains r.id)

/-- The model copies that actually enter the bag (cobra add_reactions prunes
ids the bag still carries; after the removal that is normally nothing). -/
def prunedOf (model bag : Model) (obj : String) (ft : Nat) : List Reaction :=
  (addListOf model obj ft).filter (fun r => !(hasId (keptOf model bag obj ft) r.id))

structure MergeOut where
  s : Model
  hist : List UndoOp
  origIds : List String

/-- The bag-editing prefix of the with-block in `find_reactions`: compute the
original ids, remove from the bag the ids it shares with them (history entry:
re-add the removed reactions at the end, which is where cobra's undo puts
them), then add the model's reactions (history entries: remove them again and
restore the gene list, which the removal left untouched). -/
def mergeStage (model bag : Model) (obj : String) (ft : Nat) : MergeOut :=
  ⟨({ bag with reactions := keptOf model bag obj ft } : Model).addReactions
      (addListOf model obj ft),
   [.setGenes bag.genes, .subRxns ((prunedOf model bag obj ft).map (fun r => r.id)),
    .addRxns (removedOf model bag obj ft)],
   origIdsOf model obj ft⟩

/-- cobra's resettable lower_bound setter: a no-op when the value is already
there; otherwise it records the old lower bound, bumps the upper bound first
when it lies below the new value (recording its old value too, newest entry at
the head), and assigns. -/
def setLowerBound (t : String) (v : ℚ) (p : Model × List UndoOp) : Model × List UndoOp :=
  match p.1.getRxn t with
  | none => p
  | some r =>
    if r.lb == v then p
    else
      let h1 := UndoOp.setLb t r.lb :: p.2
      let q :=
        if r.ub < v then
          ({ p.1 with reactions := updRxn t (fun x => { x with ub := v }) p.1.reactions },
           UndoOp.setUb t r.ub :: h1)
        else (p.1, h1)
      ({ q.1 with reactions := updRxn t (fun x => { x with lb := v }) q.1.reactions }, q.2)

/-- One iteration of the metabolic-task loop of `find_reactions`: a task id
present in the bag has its lower bound set to fraction. -/
def taskFoldStep (fraction : ℚ) (p : Model × List UndoOp) (t : String) : Model × List UndoOp :=
  if p.1.hasRxnId t then setLowerBound t fraction p else p

/-- The metabolic-task loop of `find_reactions`. The history produced is local
(the caller prepends it to the merge history). -/
def taskStage (tasks : Option (List String)) (fraction : ℚ) (s : Model) : Model × List UndoOp :=
  match tasks with
  | none => (s, [])
  | some ts => ts.foldl (taskFoldStep fraction) (s, [])

/-- The linear problem the external solver sees: variables and their bounds
from the reactions, the directly-added constraints, the objective. -/
structure LinearProblem where
  reactions : List Reaction
  constraints : List SolverConstraint
  objective : Objective
deriving DecidableEq, Repr

def Model.lp (m : Model) : LinearProblem := ⟨m.reactions, m.extraConstraints, m.objective⟩

inductive SolverStatus | optimal | infeasible | unbounded
deriving DecidableEq, Repr

/-- What the external solver reports: a status, an objective value and a
primal value (net flux) per reaction id. GLPK exposes primal values on an
infeasible problem too, which is why cobra can still assemble a Solution
there. -/
structure SolverOutput where
  status : SolverStatus
  objValue : ℚ
  fluxes : List (String × ℚ)
deriving DecidableEq, Repr

/-- The repository delegates all solving, so the solver is an oracle. -/
abbrev Oracle := LinearProblem → SolverOutput

/-- cobra Model.slim_optimize with its default error value NaN (embedded as
none): the objective value on an optimal status, NaN on anything else. -/
def slimOptimize (o : Oracle) (m : Model) : Option ℚ :=
  let r := o m.lp
  if r.status == .optimal then some r.objValue else none

/-- The prev-objective constraint `find_reactions` hands to solver.add: on
step one lb is V times fraction and ub is V times max_fraction; on step two lb
is V times max_fraction and ub is V. A NaN V propagates into the bounds. -/
def mkConstraint (obj : String) (v : Option ℚ) (fraction maxFraction : ℚ) : Step → SolverConstraint
  | .one => ⟨obj, v.map (fun x => x * fraction), v.map (fun x => x * maxFraction)⟩
  | .two => ⟨obj, v.map (fun x => x * maxFraction), v⟩

/-- The pFBA coefficient dictionary of `find_reactions`: weight zero on the
forward and the reverse variable of every reaction whose id is an original
model id, weight one on both variables of every other reaction. -/
def pfbaCoeffs (rs : List Reaction) (origIds : List String) : List (String × ℚ × ℚ) :=
  rs.map (fun r => (r.id, if origIds.contains r.id then ((0 : ℚ), (0 : ℚ)) else (1, 1)))

/-- The activity threshold of `find_reactions` (the float literal 1e-6): the
rational with numerator 1 and denominator one million, written as an explicit
fraction so that it evaluates inside the kernel. -/
def epsActive : ℚ := ⟨1, 1000000, by norm_num, by norm_num⟩

structure FRTrace where
  origIds : List String
  prevObjVal : Option (Option ℚ)
  constraintAdded : Option SolverConstraint
  finalLP : Option LinearProblem
  solved : Option SolverOutput
  warned : Bool

structure FROutcome where
  result : Except String (Finset String)
  bag : Model
  trace : FRTrace

/-- The objective-and-solve suffix of the with-block in `find_reactions`,
entered once get_by_id(obj) has succeeded on the merged bag. Every objective
assignment is tracked; the solver.add of the band constraint and the
set_linear_coefficients call are raw optlang operations with no history entry.
Assigning the Python int 0 to model.objective goes through
DictList.get_by_any, which treats an int as a positional index, so the
objective briefly becomes the reaction at index 0; the bag is nonempty here
because it contains the objective reaction. -/
def solvePhase (o : Oracle) (s3 : Model) (h3 : List UndoOp) (origIds : List String)
    (obj : String) (fraction maxFraction : ℚ) (step : Step) : FROutcome :=
  let s4 : Model := { s3 with objective := ⟨s3.objective.direction, [(obj, 1, -1)]⟩ }
  let h4 : List UndoOp := .setObjective s3.objective :: h3
  let v : Option ℚ := slimOptimize o s4
  let c : SolverConstraint := mkConstraint obj v fraction maxFraction step
  let s5 : Model := { s4 with extraConstraints := s4.extraConstraints ++ [c] }
  let coeffs := pfbaCoeffs s5.reactions origIds
  match s5.reactions.head? with
  | none =>
    { result := .error "IndexError", bag := rollback h4 s5,
      trace := ⟨origIds, some v, some c, none, none, false⟩ }
  | some r0 =>
    let s6 : Model := { s5 with objective := ⟨s5.objective.direction, [(r0.id, 1, -1)]⟩ }
    let h6 : List UndoOp := .setObjective s5.objective :: h4
    let s6b : Model := { s6 with objective := ⟨.min, []⟩ }
    let h7 : List UndoOp := .setObjective s6.objective :: h6
    let s7 : Model := { s6b with objective := ⟨.min, coeffs⟩ }
    let res := o s7.lp
    match res.status with
    | .unbounded =>
      { result := .error "OptimizationError", bag := rollback h7 s7,
        trace := ⟨origIds, some v, some c, some s7.lp, some res, false⟩ }
    | st =>
      let active := (res.fluxes.filter (fun p => decide (epsActive < |p.2|))).map (fun p => p.1)
      { result := .ok (active.toFinset \ origIds.toFinset),
        bag := rollback h7 s7,
        trace := ⟨origIds, some v, some c, some s7.lp, some res, st != .optimal⟩ }

/-- Embeds `_funcs.find_reactions`. The with-statement on the reaction bag is
cobra's HistoryManager: tracked operations push an undo entry and the block
exit unwinds them newest-first, whether the block ends normally or with an
exception. cobra Model.optimize is called with its default raise_error=False,
so a non-optimal status that still carries primal values (infeasible among
them, per cobra.util.solver.has_primals) only warns; an unbounded status
raises OptimizationError. -/
def find_reactions (o : Oracle) (model bag : Model) (tasks : Option (List String)) (obj : String)
    (fraction maxFraction : ℚ) (step : Step) (ft : Nat) : FROutcome :=
  let mo := mergeStage model bag obj ft
  let st := taskStage tasks fraction mo.s
  let h3 := st.2 ++ mo.hist
  if st.1.hasRxnId obj then
    solvePhase o st.1 h3 mo.origIds obj fraction maxFraction step
  else
    { result := .error "KeyError", bag := rollback h3 st.1,
      trace := ⟨mo.origIds, none, none, none, none, false⟩ }

inductive RecWarning | minClamped | maxClamped | minAboveMax
deriving DecidableEq, Repr

inductive RecError | inputNotFound | valueError | stageError (msg : String)
deriving DecidableEq, Repr

/-- Embeds the gram-stain dispatch of build.reconstruct: select the biomass
objective id or raise ValueError. -/
def selectObjective (gram : String) : Except RecError String :=
  if gram = "positive" then .ok "biomass_GmPos"
  else if gram = "negative" then .ok "biomass_GmNeg"
  else .error .valueError

/-- Embeds the fraction validation of build.reconstruct: clamp each fraction
into range with a warning (0.01 and 0.5 are the documented defaults), then
drop the minimum to half the maximum when the two ended up inverted. -/
def clampFractions (minFrac maxFrac : ℚ) : (ℚ × ℚ) × List RecWarning :=
  let m1 := if minFrac ≤ 0 ∨ 1 < minFrac then (1 : ℚ)/100 else minFrac
  let w1 : List RecWarning := if minFrac ≤ 0 ∨ 1 < minFrac then [.minClamped] else []
  let m2 := if maxFrac ≤ 0 ∨ 1 < maxFrac then (1 : ℚ)/2 else maxFrac
  let w2 : List RecWarning := if maxFrac ≤ 0 ∨ 1 < maxFrac then [.maxClamped] else []
  let m3 := if m2 < m1 then m2 * (1/2) else m1
  let w3 : List RecWarning := if m2 < m1 then [.minAboveMax] else []
  ((m3, m2), w1 ++ w2 ++ w3)

/-- The bound-independent part of a reaction: everything cobra's exchange
classifier (Model.exchanges via cobra.medium.find_boundary_types) may read —
id, name, sbo annotation, stoichiometry with compartments — and not the flux
bounds. -/
structure RxnShape where
  id : String
  name : String
  mets : List (Metabolite × ℚ)
  sbo : String
deriving DecidableEq, Repr

def Reaction.shape (r : Reaction) : RxnShape := ⟨r.id, r.name, r.mets, r.sbo⟩

def Model.shape (m : Model) : List RxnShape := m.reactions.map Reaction.shape

/-- An exchange classifier decides, from the model's shape, whether a reaction
(given by its shape) counts as an exchange. cobra's classifier — the sbo fast
path, the boundary test on the stoichiometry, the id substring excludes and
the external-compartment heuristic — reads exactly this data and never a flux
bound, so it is one such function. -/
abbrev ExchangeClassifier := List RxnShape → RxnShape → Bool

/-- Embeds the closing override of build.reconstruct: every reaction the
classifier selects on the final model receives the policy bounds. -/
def finalizeExchangeBounds (c : ExchangeClassifier) (m : Model) (b : ℚ × ℚ) : Model :=
  { m with reactions := m.reactions.map (fun r =>
      if c m.shape r.shape then { r with lb := b.1, ub := b.2 } else r) }

/-- cobra's sbo fast path (a reaction annotated with the exchange sbo term is
an exchange); used to instantiate the classifier in concrete checks. -/
def sboClassifier : ExchangeClassifier := fun _ r => r.sbo == "SBO:0000627"

structure RecTrace where
  objSelected : Option String
  fracsUsed : Option (ℚ × ℚ)
  warnings : List RecWarning
deriving DecidableEq, Repr

deriving instance DecidableEq for Except

structure RecOut where
  result : Except RecError Model
  trace : RecTrace
deriving DecidableEq

/-- The middle of build.reconstruct (medium setup, drafting, the two gap-fill
rounds with their model integration, annotation): file input, the DIAMOND
subprocess and the LP solver live there, so the stage is a parameter. It
receives the selected objective id and the clamped fractions and yields the
model to finalize, or the error it raised. -/
abbrev GapfillStage := String → ℚ → ℚ → Except String Model

/-- Embeds build.reconstruct: existence check on the input path, gram-stain
dispatch (ValueError), fraction clamping with warnings, the middle stage, then
the blunt exchange-bounds override; check_model afterwards only prints and
solves, mutating nothing. -/
def reconstruct (c : ExchangeClassifier) (body : GapfillStage) (inputExists : Bool)
    (gram : String) (minFrac maxFrac : ℚ) (openExchanges : Bool) : RecOut :=
  if !inputExists then ⟨.error .inputNotFound, ⟨none, none, []⟩⟩
  else
    match selectObjective gram with
    | .error e => ⟨.error e, ⟨none, none, []⟩⟩
    | .ok obj =>
      match body obj (clampFractions minFrac maxFrac).1.1 (clampFractions minFrac maxFrac).1.2 with
      | .error msg =>
        ⟨.error (.stageError msg),
         ⟨some obj, some (clampFractions minFrac maxFrac).1, (clampFractions minFrac maxFrac).2⟩⟩
      | .ok m =>
        ⟨.ok (finalizeExchangeBounds c m
            (if openExchanges then ((-1000 : ℚ), (1000 : ℚ)) else (0, 0))),
         ⟨some obj, some (clampFractions minFrac maxFrac).1, (clampFractions minFrac maxFrac).2⟩⟩

/-- A model-side biomass reaction used in concrete checks: note the tight
upper bound, distinguishing it from the universal copy. -/
def bioRxnModel : Reaction :=
  { id := "bio", name := "biomass", lb := 0, ub := 5, mets := [], gpr := [], sbo := "" }

/-- The universal bag's copy of the biomass reaction. -/
def bioRxnUniv : Reaction :=
  { id := "bio", name := "biomass", lb := 0, ub := 1000, mets := [], gpr := [], sbo := "" }

def bioModel : Model :=
  { id := "m", reactions := [bioRxnModel], genes := [], extraConstraints := [],
    objective := ⟨.max, []⟩ }

def bioUniv : Model :=
  { id := "u", reactions := [bioRxnUniv], genes := [], extraConstraints := [],
    objective := ⟨.max, []⟩ }

/-- A draft model with no reactions at all. -/
def emptyModel : Model :=
  { id := "m", reactions := [], genes := [], extraConstraints := [], objective := ⟨.max, []⟩ }

/-- A reaction bag holding only the biomass reaction. -/
def demoBag : Model :=
  { id := "u", reactions := [bioRxnUniv], genes := [], extraConstraints := [],
    objective := ⟨.max, []⟩ }

/-- A solver oracle reporting every problem infeasible, with zero primal
values (as GLPK may well report them): the situation of a task bound no
network can satisfy. -/
def infOracle : Oracle := fun _ =>
  { status := .infeasible, objValue := 0, fluxes := [("bio", 0)] }

/-- A solver oracle that always answers optimal, with a flux of 7 on the
biomass reaction. -/
def okOracle : Oracle := fun _ =>
  { status := .optimal, objValue := 7, fluxes := [("bio", 7)] }

/-- A two-entry reaction database for concrete checks on `create_model`:
one key resolvable against the universal model, one not. -/
def demoDb : RxnDb := [("bio", ["g1", "g2"]), ("missing_c", ["g3"])]

/-- An extracellular metabolite for concrete checks. -/
def demoCpd : Metabolite := { id := "cpd1_e", name := "thing", compartment := "extracellular" }

/-- A reaction classified as an exchange by the sbo fast path, with bounds
that the finalization must override. -/
def demoExRxn : Reaction :=
  { id := "EX_cpd1_e", name := "thing exchange", lb := -5, ub := 5,
    mets := [(demoCpd, -1)], gpr := [], sbo := "SBO:0000627" }

/-- A model as the gap-fill stage might return it, before the bounds
override. -/
def demoStageModel : Model :=
  { id := "m", reactions := [bioRxnModel, demoExRxn], genes := [], extraConstraints := [],
    objective := ⟨.max, [("bio", 1, -1)]⟩ }

/-- A gap-fill stage that returns `demoStageModel` no matter the inputs. -/
def demoBody : GapfillStage := fun _ _ _ => Except.ok demoStageModel

/-- The model `reconstruct` returns on the demo inputs with closed
exchanges. -/
def demoFinalModel : Model := finalizeExchangeBounds sboClassifier demoStageModel (0, 0)

/-- The exchange reaction of `demoFinalModel`, bounds overridden to 0. -/
def demoExRxnClosed : Reaction := { demoExRxn with lb := 0, ub := 0 }

/-- C9 (confirmed): sanitizing "3-atp" yields "_3_atp", sanitizing
"an invalid--id #3" yields "an_invalid_id_3", and both outputs satisfy the
valid-identifier predicate `is_valid_sbml_id`. -/
theorem sanitize_examples :
    sanitize_sbml_id "3-atp" = "_3_atp" ∧
    sanitize_sbml_id "an invalid--id #3" = "an_invalid_id_3" ∧
    is_valid_sbml_id (sanitize_sbml_id "3-atp") = true ∧
    is_valid_sbml_id (sanitize_sbml_id "an invalid--id #3") = true := by
  refine ⟨rfl, rfl, ?_, ?_⟩ <;> decide

theorem clampFractions_bounds (minf maxf : ℚ) :
    0 < (clampFractions minf maxf).1.1 ∧
    (clampFractions minf maxf).1.1 ≤ (clampFractions minf maxf).1.2 ∧
    (clampFractions minf maxf).1.2 ≤ 1 := by
  simp only [clampFractions]
  split_ifs with h1 h2 h3 h4 h5 h6 <;>
    push_neg at * <;>
    refine ⟨?_, ?_, ?_⟩ <;>
    linarith

/-- C10 (confirmed): whatever rational fractions the caller passes, the pair
the validation step hands to the gap-filling stage satisfies
0 < min ≤ max ≤ 1. Rationals embed the non-NaN floats of the claim. -/
theorem fractions_invariant (c : ExchangeClassifier) (body : GapfillStage) (ie : Bool)
    (gram : String) (minf maxf : ℚ) (op : Bool) (a b : ℚ)
    (h : (reconstruct c body ie gram minf maxf op).trace.fracsUsed = some (a, b)) :
    0 < a ∧ a ≤ b ∧ b ≤ 1 := by
  have hc := clampFractions_bounds minf maxf
  have hab : (clampFractions minf maxf).1 = (a, b) := by
    unfold reconstruct at h
    split at h
    · simp at h
    · split at h
      · simp at h
      · split at h <;> simpa using h
  rw [hab] at hc
  exact hc

theorem fractions_invariant_witness :
    0 < (1 : ℚ) ∧ (1 : ℚ) ≤ 1 ∧ (1 : ℚ) ≤ 1 :=
  fractions_invariant sboClassifier demoBody true "positive" 1 1 true 1 1 (by decide)

/-- C7 (confirmed): an unrecognized gram value makes `reconstruct` raise
ValueError before anything is built — the result is that error for every
gap-fill stage, which therefore never runs and no model is constructed —
while out-of-range fractions are recovered, not fatal: they are clamped
exactly as the claim states (min to 0.01, max to 0.5, then min to half of max
if still above it), each clamp leaves a warning, and with an accepted gram
value the only errors a call can surface come from the gap-fill stage
itself. -/
theorem reconstruct_validation_spec (c : ExchangeClassifier) (body : GapfillStage)
    (gram : String) (minFrac maxFrac : ℚ) (openEx : Bool) :
    (gram ≠ "positive" → gram ≠ "negative" →
      (reconstruct c body true gram minFrac maxFrac openEx).result = .error .valueError ∧
      (reconstruct c body true gram minFrac maxFrac openEx).trace.fracsUsed = none) ∧
    ((gram = "positive" ∨ gram = "negative") →
      ((reconstruct c body true gram minFrac maxFrac openEx).trace.fracsUsed =
        some ((if (if maxFrac ≤ 0 ∨ 1 < maxFrac then (1 : ℚ)/2 else maxFrac) <
                  (if minFrac ≤ 0 ∨ 1 < minFrac then (1 : ℚ)/100 else minFrac)
               then (if maxFrac ≤ 0 ∨ 1 < maxFrac then (1 : ℚ)/2 else maxFrac) * (1/2)
               else (if minFrac ≤ 0 ∨ 1 < minFrac then (1 : ℚ)/100 else minFrac)),
              (if maxFrac ≤ 0 ∨ 1 < maxFrac then (1 : ℚ)/2 else maxFrac))) ∧
      ((minFrac ≤ 0 ∨ 1 < minFrac) →
        RecWarning.minClamped ∈ (reconstruct c body true gram minFrac maxFrac openEx).trace.warnings) ∧
      ((maxFrac ≤ 0 ∨ 1 < maxFrac) →
        RecWarning.maxClamped ∈ (reconstruct c body true gram minFrac maxFrac openEx).trace.warnings) ∧
      (∀ e, (reconstruct c body true gram minFrac maxFrac openEx).result = .error e →
        ∃ msg, e = RecError.stageError msg)) := by
  constructor
  · intro h1 h2
    unfold reconstruct selectObjective
    rw [if_neg h1, if_neg h2]
    exact ⟨rfl, rfl⟩
  · intro hg
    have hob : ∃ ob, selectObjective gram = Except.ok ob := by
      rcases hg with h | h <;> subst h
      · exact ⟨"biomass_GmPos", by simp [selectObjective]⟩
      · exact ⟨"biomass_GmNeg", by simp [selectObjective]⟩
    obtain ⟨ob, hob⟩ := hob
    have hrec :
        reconstruct c body true gram minFrac maxFrac openEx =
          match body ob (clampFractions minFrac maxFrac).1.1 (clampFractions minFrac maxFrac).1.2 with
          | .error msg =>
            ⟨.error (.stageError msg),
             ⟨some ob, some (clampFractions minFrac maxFrac).1, (clampFractions minFrac maxFrac).2⟩⟩
          | .ok m =>
            ⟨.ok (finalizeExchangeBounds c m
                (if openEx then ((-1000 : ℚ), (1000 : ℚ)) else (0, 0))),
             ⟨some ob, some (clampFractions minFrac maxFrac).1, (clampFractions minFrac maxFrac).2⟩⟩ := by
      unfold reconstruct
      rw [hob]
      rfl
    have htrace :
        (reconstruct c body true gram minFrac maxFrac openEx).trace =
          ⟨some ob, some (clampFractions minFrac maxFrac).1, (clampFractions minFrac maxFrac).2⟩ := by
      rw [hrec]
      split <;> rfl
    refine ⟨?_, ?_, ?_, ?_⟩
    · rw [htrace]
      simp only [clampFractions]
    · intro hcond
      rw [htrace]
      simp only [clampFractions, if_pos hcond]
      simp
    · intro hcond
      rw [htrace]
      simp only [clampFractions, if_pos hcond]
      split_ifs <;> simp
    · intro e he
      rw [hrec] at he
      revert he
      split
      · rename_i msg hmsg
        intro he
        simp only [Except.error.injEq] at he
        exact ⟨msg, he.symm⟩
      · intro he
        simp at he

theorem reconstruct_validation_spec_witness :
    (reconstruct sboClassifier demoBody true "bogus" 5 1 true).result = .error .valueError ∧
    (reconstruct sboClassifier demoBody true "positive" 5 1 true).trace.fracsUsed
      = some (1/100, 1) := by
  constructor
  · exact ((reconstruct_validation_spec sboClassifier demoBody "bogus" 5 1 true).1
      (by decide) (by decide)).1
  · have h := ((reconstruct_validation_spec sboClassifier demoBody "positive" 5 1 true).2
      (Or.inl rfl)).1
    rw [h]
    norm_num

theorem map_shape_ite (c : ExchangeClassifier) (sh : List RxnShape) (b : ℚ × ℚ)
    (l : List Reaction) :
    (l.map (fun r => if c sh r.shape then { r with lb := b.1, ub := b.2 } else r)).map
        Reaction.shape
      = l.map Reaction.shape := by
  induction l with
  | nil => rfl
  | cons r t ih =>
    simp only [List.map_cons, ih]
    congr 1
    split <;> rfl

theorem finalize_shape (c : ExchangeClassifier) (m : Model) (b : ℚ × ℚ) :
    (finalizeExchangeBounds c m b).shape = m.shape :=
  map_shape_ite c m.shape b m.reactions

/-- C8 (confirmed): every model `reconstruct` returns has been through the
closing bounds override, so each reaction its exchange classifier selects —
cobra's classifier reads only the model's bound-independent shape, and the
theorem holds for every such classifier — carries bounds (-1000, 1000) when
open_exchanges is true and (0, 0) when it is false, regardless of what the
gap-filling stage or base-medium setup put there. -/
theorem reconstruct_exchange_bounds (c : ExchangeClassifier) (body : GapfillStage)
    (ie : Bool) (gram : String) (minf maxf : ℚ) (openEx : Bool) (m : Model)
    (h : (reconstruct c body ie gram minf maxf openEx).result = .ok m)
    (r : Reaction) (hr : r ∈ m.reactions) (hc : c m.shape r.shape = true) :
    (r.lb, r.ub) = if openEx then ((-1000 : ℚ), 1000) else (0, 0) := by
  have hm : ∃ m0, m = finalizeExchangeBounds c m0
      (if openEx then ((-1000 : ℚ), 1000) else (0, 0)) := by
    unfold reconstruct at h
    split at h
    · simp at h
    · split at h
      · simp at h
      · split at h
        · simp at h
        · rename_i m0 hm0
          simp only [Except.ok.injEq] at h
          exact ⟨m0, h.symm⟩
  obtain ⟨m0, rfl⟩ := hm
  have hshape := finalize_shape c m0 (if openEx then ((-1000 : ℚ), 1000) else (0, 0))
  unfold finalizeExchangeBounds at hr
  simp only [List.mem_map] at hr
  obtain ⟨r0, hr0, hfr⟩ := hr
  by_cases hcase : c m0.shape r0.shape = true
  · rw [if_pos hcase] at hfr
    subst hfr
    simp
  · rw [if_neg hcase] at hfr
    subst hfr
    rw [hshape] at hc
    exact absurd hc hcase

theorem reconstruct_exchange_bounds_witness :
    (demoExRxnClosed.lb, demoExRxnClosed.ub) = if false then ((-1000 : ℚ), 1000) else (0, 0) :=
  reconstruct_exchange_bounds sboClassifier demoBody true "positive" 1 1 false
    demoFinalModel (by decide) demoExRxnClosed (by decide) (by decide)

theorem addGenes_cons (gs : List String) (x : String) (t : List String) :
    addGenes gs (x :: t) = addGenes (if gs.contains x then gs else gs ++ [x]) t := rfl

theorem mem_addGenes (new : List String) (gs : List String) (g : String) :
    g ∈ addGenes gs new ↔ g ∈ gs ∨ g ∈ new := by
  induction new generalizing gs with
  | nil => simp [addGenes]
  | cons x t ih =>
    rw [addGenes_cons, ih]
    by_cases hx : gs.contains x = true
    · have hmem : x ∈ gs := by simpa using hx
      rw [if_pos hx]
      simp only [List.mem_cons]
      constructor
      · rintro (h | h)
        · exact Or.inl h
        · exact Or.inr (Or.inr h)
      · rintro (h | h | h)
        · exact Or.inl h
        · exact Or.inl (h ▸ hmem)
        · exact Or.inr h
    · rw [if_neg hx]
      simp only [List.mem_append, List.mem_singleton, List.mem_cons]
      tauto

theorem hasId_iff (l : List Reaction) (i : String) :
    hasId l i = true ↔ ∃ r ∈ l, r.id = i := by
  simp [hasId, List.any_eq_true, beq_iff_eq]

theorem hasId_false_iff (l : List Reaction) (i : String) :
    hasId l i = false ↔ ∀ r ∈ l, r.id ≠ i := by
  simp [hasId, List.any_eq_false, beq_iff_eq]

theorem hasId_append (l1 l2 : List Reaction) (i : String) :
    hasId (l1 ++ l2) i = (hasId l1 i || hasId l2 i) := by
  simp [hasId]

theorem updRxn_append (t : String) (g : Reaction → Reaction) (l1 l2 : List Reaction) :
    updRxn t g (l1 ++ l2) = updRxn t g l1 ++ updRxn t g l2 := by
  simp [updRxn]

theorem updRxn_of_not_has (t : String) (g : Reaction → Reaction) (l : List Reaction)
    (h : hasId l t = false) : updRxn t g l = l := by
  induction l with
  | nil => rfl
  | cons r rest ih =>
    rw [hasId_false_iff] at h
    have hr : (r.id == t) = false := by
      simpa using h r (List.mem_cons_self _ _)
    have hrest : hasId rest t = false := by
      rw [hasId_false_iff]
      exact fun q hq => h q (List.mem_cons_of_mem _ hq)
    simp only [updRxn, List.map_cons, hr, Bool.false_eq_true, if_false]
    exact congrArg (r :: ·) (ih hrest)

theorem mem_valuesConcat (db : RxnDb) (g : String) :
    g ∈ db.foldr (fun p acc => p.2 ++ acc) [] ↔ ∃ p ∈ db, g ∈ p.2 := by
  induction db with
  | nil => simp
  | cons p t ih => simp [ih]

theorem createFold_spec (universal : Model) (db : RxnDb) :
    ∀ acc : Model,
      (∀ p ∈ db, acc.hasRxnId p.1 = false) →
      (db.map Prod.fst).Nodup →
      (db.foldl (createStep universal) acc).reactions
          = acc.reactions
            ++ db.filterMap (fun p => (universal.getRxn p.1).map (fun r => { r with gpr := p.2 }))
        ∧ ∀ g ∈ acc.genes, g ∈ (db.foldl (createStep universal) acc).genes := by
  induction db with
  | nil => intro acc _ _; simp
  | cons p t ih =>
    intro acc hdisj hnd
    have hndt : (t.map Prod.fst).Nodup := by
      simp only [List.map_cons, List.nodup_cons] at hnd
      exact hnd.2
    have hp1 : p.1 ∉ t.map Prod.fst := by
      simp only [List.map_cons, List.nodup_cons] at hnd
      exact hnd.1
    cases hu : universal.getRxn p.1 with
    | none =>
      have hstep : createStep universal acc p = acc := by
        simp [createStep, hu]
      rw [List.foldl_cons, hstep, List.filterMap_cons]
      simp only [hu, Option.map_none']
      exact ih acc (fun q hq => hdisj q (List.mem_cons_of_mem _ hq)) hndt
    | some r =>
      have hrid : r.id = p.1 := by
        have := List.find?_some hu
        simpa [beq_iff_eq] using this
      have hacc : hasId acc.reactions p.1 = false := hdisj p (List.mem_cons_self _ _)
      have hstepr : (createStep universal acc p).reactions
          = acc.reactions ++ [{ r with gpr := p.2 }] := by
        simp only [createStep, hu, Model.addReactions, Model.setGpr, Model.hasRxnId]
        rw [List.filter_cons]
        simp only [List.filter_nil, hrid, hacc, Bool.not_false, if_pos]
        rw [updRxn_append, updRxn_of_not_has _ _ _ hacc]
        simp [updRxn, hrid]
      have hstepg : (createStep universal acc p).genes = addGenes acc.genes r.gpr := by
        simp only [createStep, hu, Model.addReactions, Model.setGpr, Model.hasRxnId]
        rw [List.filter_cons]
        simp only [List.filter_nil, hrid, hacc, Bool.not_false, if_pos]
        simp
      have hdisj2 : ∀ q ∈ t, (createStep universal acc p).hasRxnId q.1 = false := by
        intro q hq
        have hq1 : q.1 ≠ p.1 := by
          intro hcontra
          exact hp1 (hcontra ▸ List.mem_map_of_mem Prod.fst hq)
        show hasId (createStep universal acc p).reactions q.1 = false
        rw [hstepr, hasId_append]
        have h1 : hasId acc.reactions q.1 = false := hdisj q (List.mem_cons_of_mem _ hq)
        have h2 : hasId [{ r with gpr := p.2 }] q.1 = false := by
          rw [hasId_false_iff]
          intro s hs
          simp only [List.mem_singleton] at hs
          subst hs
          show r.id ≠ q.1
          rw [hrid]
          exact Ne.symm hq1
        rw [h1, h2]
        rfl
      obtain ⟨ihr, ihg⟩ := ih (createStep universal acc p) hdisj2 hndt
      constructor
      · rw [List.foldl_cons, ihr, hstepr, List.filterMap_cons]
        simp [hu, List.append_assoc]
      · intro g hg
        rw [List.foldl_cons]
        exact ihg g (by rw [hstepg]; exact (mem_addGenes _ _ _).2 (Or.inl hg))

/-- C6 (confirmed): for a reaction database with distinct keys (a Python
dict), the draft model contains exactly the reactions of the database whose
ids exist in the universal model, in order, each a copy of the universal
reaction whose rule has been replaced by the OR of the genes discovered for
that id, in discovery order; unresolvable ids are dropped with no error (the
function is total), and every gene a produced rule references is in the
model's gene list. -/
theorem create_model_spec (rxnDb : RxnDb) (universal : Model) (modelId : String)
    (hkeys : (rxnDb.map Prod.fst).Nodup) :
    (create_model rxnDb universal modelId).reactions
        = rxnDb.filterMap (fun p => (universal.getRxn p.1).map (fun r => { r with gpr := p.2 }))
      ∧ ∀ r ∈ (create_model rxnDb universal modelId).reactions, ∀ g ∈ r.gpr,
          g ∈ (create_model rxnDb universal modelId).genes := by
  have h := createFold_spec universal rxnDb
    { id := modelId, reactions := [],
      genes := addGenes [] (rxnDb.foldr (fun p acc => p.2 ++ acc) []),
      extraConstraints := [], objective := ⟨.max, []⟩ }
    (fun p _ => rfl) hkeys
  have hre : (create_model rxnDb universal modelId).reactions
      = rxnDb.filterMap (fun p => (universal.getRxn p.1).map (fun r => { r with gpr := p.2 })) := by
    have := h.1
    simpa [create_model] using this
  refine ⟨hre, ?_⟩
  intro r hr g hg
  rw [hre] at hr
  simp only [List.mem_filterMap] at hr
  obtain ⟨p, hp, hsome⟩ := hr
  obtain ⟨r0, hr0, hval⟩ := Option.map_eq_some'.1 hsome
  have hgpr : r.gpr = p.2 := by rw [← hval]
  have hgm : g ∈ addGenes [] (rxnDb.foldr (fun p acc => p.2 ++ acc) []) := by
    refine (mem_addGenes _ _ _).2 (Or.inr ?_)
    exact (mem_valuesConcat _ _).2 ⟨p, hp, hgpr ▸ hg⟩
  have := h.2 g hgm
  simpa [create_model] using this

theorem create_model_spec_witness :
    (create_model demoDb bioUniv "draft").reactions
        = demoDb.filterMap (fun p => (bioUniv.getRxn p.1).map (fun r => { r with gpr := p.2 }))
      ∧ (create_model demoDb bioUniv "draft").reactions.length = 1 :=
  ⟨(create_model_spec demoDb bioUniv "draft" (by decide)).1, by decide⟩

theorem getRxn_of_has (m : Model) (i : String) (h : m.hasRxnId i = true) :
    ∃ r, m.getRxn i = some r ∧ r.id = i := by
  have hex : ∃ r ∈ m.reactions, r.id = i := (hasId_iff _ _).1 h
  obtain ⟨r0, hr0, hid⟩ := hex
  have hsome : (m.reactions.find? (fun r => r.id == i)).isSome := by
    rw [List.find?_isSome]
    exact ⟨r0, hr0, by simp [hid]⟩
  obtain ⟨r, hr⟩ := Option.isSome_iff_exists.1 hsome
  refine ⟨r, hr, ?_⟩
  have := List.find?_some hr
  simpa [beq_iff_eq] using this

theorem collectCopies_ok (universal : Model) (obj : String) (ids : List String)
    (h : ∀ i ∈ ids, i ≠ obj → universal.hasRxnId i = true) :
    collectCopies universal obj ids
      = Except.ok (ids.filterMap (fun i => if i = obj then none else universal.getRxn i)) := by
  induction ids with
  | nil => rfl
  | cons i t ih =>
    have iht := ih (fun j hj => h j (List.mem_cons_of_mem _ hj))
    by_cases hi : i = obj
    · simp [collectCopies, hi, iht]
    · have hhas := h i (List.mem_cons_self _ _) hi
      obtain ⟨r, hr, _⟩ := getRxn_of_has universal i hhas
      have hbeq : (i == obj) = false := by simpa using hi
      simp [collectCopies, hbeq, hr, iht, List.filterMap_cons, hi, Except.map]

theorem addExchangesFrom_reactions (cpds : List Metabolite) (m : Model) :
    ∃ exs, (addExchangesFrom cpds m).reactions = m.reactions ++ exs ∧
      ∀ r ∈ exs, ∃ cpd ∈ cpds, cpd.compartment = "extracellular" ∧ r = mkExchange cpd := by
  induction cpds generalizing m with
  | nil => exact ⟨[], by simp [addExchangesFrom], by simp⟩
  | cons c t ih =>
    have hstep : addExchangesFrom (c :: t) m
        = addExchangesFrom t
            (if c.compartment == "extracellular" then
              (if m.hasRxnId ("EX_" ++ c.id) then m
               else { m with reactions := m.reactions ++ [mkExchange c] })
             else m) := by
      simp only [addExchangesFrom, List.foldl_cons]
    by_cases hc : c.compartment == "extracellular"
    · by_cases hhas : m.hasRxnId ("EX_" ++ c.id) = true
      · obtain ⟨exs, he, hprop⟩ := ih m
        refine ⟨exs, ?_, ?_⟩
        · rw [hstep, if_pos hc, if_pos hhas]
          exact he
        · intro r hr
          obtain ⟨cpd, hcp, hrest⟩ := hprop r hr
          exact ⟨cpd, List.mem_cons_of_mem _ hcp, hrest⟩
      · obtain ⟨exs, he, hprop⟩ :=
          ih { m with reactions := m.reactions ++ [mkExchange c] }
        refine ⟨mkExchange c :: exs, ?_, ?_⟩
        · rw [hstep, if_pos hc]
          rw [if_neg (by simpa using hhas)]
          rw [he]
          simp
        · intro r hr
          rcases List.mem_cons.1 hr with rfl | hr'
          · exact ⟨c, List.mem_cons_self _ _, by simpa using hc, rfl⟩
          · obtain ⟨cpd, hcp, hrest⟩ := hprop r hr'
            exact ⟨cpd, List.mem_cons_of_mem _ hcp, hrest⟩
    · obtain ⟨exs, he, hprop⟩ := ih m
      refine ⟨exs, ?_, ?_⟩
      · rw [hstep, if_neg hc]
        exact he
      · intro r hr
        obtain ⟨cpd, hcp, hrest⟩ := hprop r hr
        exact ⟨cpd, List.mem_cons_of_mem _ hcp, hrest⟩

theorem hasRxnId_mono (m : Model) (l2 : List Reaction) (i : String)
    (h : m.hasRxnId i = true) :
    hasId (m.reactions ++ l2) i = true := by
  have h' : hasId m.reactions i = true := h
  rw [hasId_append, h']
  rfl

theorem addExchangesFrom_covers (cpds : List Metabolite) :
    ∀ m : Model, ∀ cpd ∈ cpds, cpd.compartment = "extracellular" →
      (addExchangesFrom cpds m).hasRxnId ("EX_" ++ cpd.id) = true := by
  induction cpds with
  | nil => intro m cpd h; simp at h
  | cons c t ih =>
    intro m cpd hmem hex
    have hstep : addExchangesFrom (c :: t) m
        = addExchangesFrom t
            (if c.compartment == "extracellular" then
              (if m.hasRxnId ("EX_" ++ c.id) then m
               else { m with reactions := m.reactions ++ [mkExchange c] })
             else m) := by
      simp only [addExchangesFrom, List.foldl_cons]
    rcases List.mem_cons.1 hmem with rfl | hmem'
    · -- the exchange for cpd exists right after its own step, and later steps
      -- only append reactions
      set m1 := (if cpd.compartment == "extracellular" then
              (if m.hasRxnId ("EX_" ++ cpd.id) then m
               else { m with reactions := m.reactions ++ [mkExchange cpd] })
             else m) with hm1
      have h1 : m1.hasRxnId ("EX_" ++ cpd.id) = true := by
        rw [hm1, if_pos (by simp [hex])]
        by_cases hhas : m.hasRxnId ("EX_" ++ cpd.id) = true
        · rw [if_pos hhas]; exact hhas
        · rw [if_neg (by simpa using hhas)]
          show hasId (m.reactions ++ [mkExchange cpd]) ("EX_" ++ cpd.id) = true
          rw [hasId_append]
          have : hasId [mkExchange cpd] ("EX_" ++ cpd.id) = true := by
            rw [hasId_iff]
            exact ⟨mkExchange cpd, List.mem_singleton.2 rfl, rfl⟩
          rw [this, Bool.or_true]
      obtain ⟨exs, he, _⟩ := addExchangesFrom_reactions t m1
      rw [hstep]
      show hasId (addExchangesFrom t m1).reactions _ = true
      rw [he]
      exact hasRxnId_mono m1 exs _ h1
    · rw [hstep]
      exact ih _ cpd hmem' hex

theorem insFold_stable (ms : List (Metabolite × ℚ)) (M : List Metabolite)
    (h : ∀ q ∈ ms, q.1 ∈ M) :
    ms.foldl (fun a p => insertMet a p.1) M = M := by
  induction ms with
  | nil => rfl
  | cons q t ih =>
    have hq : insertMet M q.1 = M := by
      unfold insertMet
      rw [if_pos]
      rw [List.any_eq_true]
      exact ⟨q.1, h q (List.mem_cons_self _ _), by simp⟩
    simp only [List.foldl_cons, hq]
    exact ih (fun p hp => h p (List.mem_cons_of_mem _ hp))

theorem metsOfList_append_stable (l : List Reaction) (exs : List Reaction)
    (h : ∀ r ∈ exs, ∀ q ∈ r.mets, q.1 ∈ metsOfList l) :
    metsOfList (l ++ exs) = metsOfList l := by
  unfold metsOfList
  rw [List.foldl_append]
  show exs.foldl _ (metsOfList l) = metsOfList l
  induction exs with
  | nil => rfl
  | cons e t ih =>
    simp only [List.foldl_cons]
    rw [insFold_stable e.mets (metsOfList l) (h e (List.mem_cons_self _ _))]
    exact ih (fun r hr => h r (List.mem_cons_of_mem _ hr))

/-- C5 (corrected): on a call whose reaction lookups succeed, the model gains
exactly the copies the claim describes — the universal objective copy on step
one (even when obj is not among the new ids) and a copy of every new id other
than obj — except that cobra add_reactions silently drops any copy whose id
the model already carries (the amendment the counterexample forces); then an
exchange reaction with id EX_ plus the metabolite id and bounds (-1000, 1000)
exists for every extracellular metabolite of the result, the created ones
carrying exactly those bounds; and no reaction is ever removed: the original
reactions stay, in order, as a prefix. -/
theorem gapfill_model_spec (model universal : Model) (newRxnIds : List String) (obj : String)
    (step : Step)
    (hobj : step = Step.one → universal.hasRxnId obj = true)
    (hnew : ∀ i ∈ newRxnIds, i ≠ obj → universal.hasRxnId i = true)
    (hpresent : step = Step.two → model.hasRxnId obj = true) :
    ∃ m' exs,
      gapfill_model model universal newRxnIds obj step = Except.ok m' ∧
      m'.reactions
        = model.reactions
          ++ ((match step with
               | Step.one => (universal.getRxn obj).toList
               | Step.two => [])
              ++ newRxnIds.filterMap (fun i => if i = obj then none else universal.getRxn i)).filter
               (fun r => !(model.hasRxnId r.id))
          ++ exs ∧
      (∀ r ∈ exs, r.lb = -1000 ∧ r.ub = 1000 ∧
        ∃ cpd, cpd.compartment = "extracellular" ∧ r = mkExchange cpd) ∧
      (∀ cpd ∈ m'.metabolitesList, cpd.compartment = "extracellular" →
        m'.hasRxnId ("EX_" ++ cpd.id) = true) := by
  have hbase : ∃ base, objBase universal obj step = .ok base ∧
      base = (match step with
              | Step.one => (universal.getRxn obj).toList
              | Step.two => []) := by
    cases step with
    | one =>
      obtain ⟨r, hr, _⟩ := getRxn_of_has universal obj (hobj rfl)
      exact ⟨[r], by simp [objBase, hr], by simp [hr]⟩
    | two => exact ⟨[], rfl, rfl⟩
  obtain ⟨base, hb1, hb2⟩ := hbase
  have hnews := collectCopies_ok universal obj newRxnIds hnew
  have hhasobj : (model.addReactions
      (base ++ newRxnIds.filterMap (fun i => if i = obj then none else universal.getRxn i))).hasRxnId
        obj = true := by
    have hm1r : (model.addReactions
        (base ++ newRxnIds.filterMap (fun i => if i = obj then none else universal.getRxn i))).reactions
        = model.reactions
          ++ (base ++ newRxnIds.filterMap
                (fun i => if i = obj then none else universal.getRxn i)).filter
              (fun r => !(model.hasRxnId r.id)) := rfl
    show hasId _ obj = true
    rw [hm1r, hasId_append]
    cases hmo : model.hasRxnId obj with
    | true =>
      have h' : hasId model.reactions obj = true := hmo
      rw [h']
      rfl
    | false =>
      cases step with
      | one =>
        obtain ⟨r, hr, hid⟩ := getRxn_of_has universal obj (hobj rfl)
        have hb2' : base = [r] := by rw [hb2]; simp [hr]
        have hkeep : hasId ((base ++ newRxnIds.filterMap
            (fun i => if i = obj then none else universal.getRxn i)).filter
              (fun r => !(model.hasRxnId r.id))) obj = true := by
          rw [hasId_iff]
          refine ⟨r, ?_, hid⟩
          rw [List.mem_filter]
          constructor
          · rw [hb2']
            exact List.mem_append_left _ (List.mem_singleton.2 rfl)
          · rw [hid, hmo]
            rfl
        rw [hkeep, Bool.or_true]
      | two =>
        rw [hpresent rfl] at hmo
        exact absurd hmo (by simp)
  have hcall : gapfill_model model universal newRxnIds obj step
      = Except.ok (addExchanges
          { model.addReactions
              (base ++ newRxnIds.filterMap (fun i => if i = obj then none else universal.getRxn i))
            with objective := ⟨.max, [(obj, 1, -1)]⟩ }) := by
    unfold gapfill_model
    rw [hb1]
    simp only [hnews, hhasobj, if_true]
  set m2 : Model :=
    { model.addReactions
        (base ++ newRxnIds.filterMap (fun i => if i = obj then none else universal.getRxn i))
      with objective := ⟨.max, [(obj, 1, -1)]⟩ } with hm2def
  have hm2r : m2.reactions
      = model.reactions
        ++ (base ++ newRxnIds.filterMap
              (fun i => if i = obj then none else universal.getRxn i)).filter
            (fun r => !(model.hasRxnId r.id)) := rfl
  obtain ⟨exs, he, hprop⟩ := addExchangesFrom_reactions m2.metabolitesList m2
  have haddex : addExchanges m2 = addExchangesFrom m2.metabolitesList m2 := rfl
  refine ⟨addExchanges m2, exs, hcall, ?_, ?_, ?_⟩
  · show (addExchanges m2).reactions = _
    rw [haddex, he, hm2r, hb2]
    simp only [List.append_assoc, List.filter_append]
    cases step <;> rfl
  · intro r hr
    obtain ⟨cpd, _, hex, hrfl⟩ := hprop r hr
    exact ⟨by rw [hrfl]; rfl, by rw [hrfl]; rfl, cpd, hex, hrfl⟩
  · have hmets : (addExchanges m2).metabolitesList = m2.metabolitesList := by
      show metsOfList (addExchangesFrom m2.metabolitesList m2).reactions = _
      rw [he]
      exact metsOfList_append_stable m2.reactions exs (by
        intro r hr q hq
        obtain ⟨cpd, hcpd, _, hrfl⟩ := hprop r hr
        rw [hrfl] at hq
        simp only [mkExchange, List.mem_singleton] at hq
        rw [hq]
        exact hcpd)
    intro cpd hcpd hex
    rw [hmets] at hcpd
    rw [haddex]
    exact addExchangesFrom_covers m2.metabolitesList m2 cpd hcpd hex

/-- C5 counterexample: the claim as stated says a copy of the objective
reaction obj is added to the model at step one even when obj is not in
new_rxn_ids — but when the model already carries a reaction with that id,
cobra add_reactions ignores the copy: here the call returns the model's
reaction list unchanged, and the universal objective copy (distinguishable by
its bounds) is not in it. -/
theorem gapfill_model_duplicate_obj_ignored :
    (gapfill_model bioModel bioUniv [] "bio" Step.one).map (fun m => m.reactions)
        = Except.ok [bioRxnModel]
      ∧ bioRxnUniv ≠ bioRxnModel := by
  constructor
  · decide
  · decide

theorem gapfill_model_spec_witness :
    ∃ m' exs,
      gapfill_model emptyModel bioUniv ["bio"] "bio" Step.one = Except.ok m' ∧
      m'.reactions
        = emptyModel.reactions
          ++ ((match Step.one with
               | Step.one => (bioUniv.getRxn "bio").toList
               | Step.two => [])
              ++ ["bio"].filterMap (fun i => if i = "bio" then none else bioUniv.getRxn i)).filter
               (fun r => !(emptyModel.hasRxnId r.id))
          ++ exs ∧
      (∀ r ∈ exs, r.lb = -1000 ∧ r.ub = 1000 ∧
        ∃ cpd, cpd.compartment = "extracellular" ∧ r = mkExchange cpd) ∧
      (∀ cpd ∈ m'.metabolitesList, cpd.compartment = "extracellular" →
        m'.hasRxnId ("EX_" ++ cpd.id) = true) :=
  gapfill_model_spec emptyModel bioUniv ["bio"] "bio" Step.one (by decide) (by decide) (by decide)

theorem rollback_nil (m : Model) : rollback [] m = m := rfl

theorem rollback_cons (u : UndoOp) (h : List UndoOp) (m : Model) :
    rollback (u :: h) m = rollback h (u.apply m) := rfl

theorem rollback_append (h1 h2 : List UndoOp) (m : Model) :
    rollback (h1 ++ h2) m = rollback h2 (rollback h1 m) :=
  List.foldl_append _ _ _ _

theorem updRxn_map_id (t : String) (g : Reaction → Reaction) (l : List Reaction)
    (hg : ∀ x, (g x).id = x.id) :
    (updRxn t g l).map (fun r => r.id) = l.map (fun r => r.id) := by
  induction l with
  | nil => rfl
  | cons x xs ih =>
    simp only [updRxn, List.map_cons] at *
    rw [List.cons.injEq]
    constructor
    · split
      · exact hg x
      · rfl
    · exact ih

theorem updRxn_comp (t : String) (g2 g1 : Reaction → Reaction) (l : List Reaction)
    (hg1 : ∀ x, (g1 x).id = x.id) :
    updRxn t g2 (updRxn t g1 l) = updRxn t (fun x => g2 (g1 x)) l := by
  induction l with
  | nil => rfl
  | cons x xs ih =>
    simp only [updRxn, List.map_cons]
    rw [List.cons.injEq]
    constructor
    · by_cases hx : (x.id == t) = true
      · rw [if_pos hx]
        rw [if_pos (by rw [hg1 x]; exact hx), if_pos hx]
      · rw [if_neg hx, if_neg hx, if_neg hx]
    · exact ih

theorem updRxn_eq_self (t : String) (g : Reaction → Reaction) (l : List Reaction)
    (h : ∀ x ∈ l, x.id = t → g x = x) : updRxn t g l = l := by
  induction l with
  | nil => rfl
  | cons x xs ih =>
    simp only [updRxn, List.map_cons]
    rw [List.cons.injEq]
    constructor
    · by_cases hx : (x.id == t) = true
      · rw [if_pos hx]
        exact h x (List.mem_cons_self _ _) (by simpa using hx)
      · rw [if_neg hx]
    · exact ih (fun y hy => h y (List.mem_cons_of_mem _ hy))

theorem unique_by_id (l : List Reaction) (hnd : (l.map (fun r => r.id)).Nodup)
    (r x : Reaction) (hr : r ∈ l) (hx : x ∈ l) (hid : x.id = r.id) : x = r :=
  List.inj_on_of_nodup_map hnd hx hr hid

theorem getRxn_mem (m : Model) (t : String) (r : Reaction) (h : m.getRxn t = some r) :
    r ∈ m.reactions ∧ r.id = t := by
  refine ⟨List.mem_of_find?_eq_some h, ?_⟩
  have := List.find?_some h
  simpa [beq_iff_eq] using this


theorem updRxn_chain2 (t : String) (g2 g1 : Reaction → Reaction) (l : List Reaction)
    (hg1 : ∀ x, (g1 x).id = x.id)
    (hnd : (l.map (fun r => r.id)).Nodup)
    (hfix : ∀ x ∈ l, x.id = t → g2 (g1 x) = x) :
    updRxn t g2 (updRxn t g1 l) = l := by
  induction l with
  | nil => rfl
  | cons x xs ih =>
    simp only [List.map_cons, List.nodup_cons] at hnd
    simp only [updRxn, List.map_cons]
    rw [List.cons.injEq]
    constructor
    · by_cases hx : (x.id == t) = true
      · rw [if_pos hx]
        rw [if_pos (show ((g1 x).id == t) = true by rw [hg1]; exact hx)]
        exact hfix x (List.mem_cons_self _ _) (by simpa using hx)
      · rw [if_neg hx, if_neg hx]
    · show updRxn t g2 (updRxn t g1 xs) = xs
      by_cases hx : (x.id == t) = true
      · have hxs : hasId xs t = false := by
          rw [hasId_false_iff]
          intro q hq hqt
          have hxt : x.id = t := by simpa using hx
          exact hnd.1 (by rw [← hxt] at hqt; exact hqt ▸ List.mem_map_of_mem _ hq)
        rw [updRxn_of_not_has _ _ _ hxs, updRxn_of_not_has _ _ _ hxs]
      · exact ih hnd.2 (fun q hq hqt => hfix q (List.mem_cons_of_mem _ hq) hqt)

theorem updRxn_chain4 (t : String) (g4 g3 g2 g1 : Reaction → Reaction) (l : List Reaction)
    (hg1 : ∀ x, (g1 x).id = x.id) (hg2 : ∀ x, (g2 x).id = x.id) (hg3 : ∀ x, (g3 x).id = x.id)
    (hnd : (l.map (fun r => r.id)).Nodup)
    (hfix : ∀ x ∈ l, x.id = t → g4 (g3 (g2 (g1 x))) = x) :
    updRxn t g4 (updRxn t g3 (updRxn t g2 (updRxn t g1 l))) = l := by
  induction l with
  | nil => rfl
  | cons x xs ih =>
    simp only [List.map_cons, List.nodup_cons] at hnd
    simp only [updRxn, List.map_cons]
    rw [List.cons.injEq]
    constructor
    · by_cases hx : (x.id == t) = true
      · rw [if_pos hx]
        rw [if_pos (show ((g1 x).id == t) = true by rw [hg1]; exact hx)]
        rw [if_pos (show ((g2 (g1 x)).id == t) = true by rw [hg2, hg1]; exact hx)]
        rw [if_pos (show ((g3 (g2 (g1 x))).id == t) = true by rw [hg3, hg2, hg1]; exact hx)]
        exact hfix x (List.mem_cons_self _ _) (by simpa using hx)
      · rw [if_neg hx, if_neg hx, if_neg hx, if_neg hx]
    · show updRxn t g4 (updRxn t g3 (updRxn t g2 (updRxn t g1 xs))) = xs
      by_cases hx : (x.id == t) = true
      · have hxs : hasId xs t = false := by
          rw [hasId_false_iff]
          intro q hq hqt
          have hxt : x.id = t := by simpa using hx
          exact hnd.1 (by rw [← hxt] at hqt; exact hqt ▸ List.mem_map_of_mem _ hq)
        rw [updRxn_of_not_has _ _ _ hxs, updRxn_of_not_has _ _ _ hxs,
          updRxn_of_not_has _ _ _ hxs, updRxn_of_not_has _ _ _ hxs]
      · exact ih hnd.2 (fun q hq hqt => hfix q (List.mem_cons_of_mem _ hq) hqt)

theorem updRxn_restore_single (t : String) (v : ℚ) (l : List Reaction)
    (hnd : (l.map (fun r => r.id)).Nodup) (r : Reaction) (hr : r ∈ l) (hrid : r.id = t) :
    updRxn t (fun x => { x with lb := r.lb })
      (updRxn t (fun x => { x with lb := v }) l) = l := by
  refine updRxn_chain2 t _ _ l (fun x => rfl) hnd ?_
  intro x hx hxid
  have hxr : x = r := unique_by_id l hnd r x hr hx (by rw [hxid, hrid])
  subst hxr
  rfl

theorem updRxn_restore_pair (t : String) (v : ℚ) (l : List Reaction)
    (hnd : (l.map (fun r => r.id)).Nodup) (r : Reaction) (hr : r ∈ l) (hrid : r.id = t) :
    updRxn t (fun x => { x with lb := r.lb })
      (updRxn t (fun x => { x with ub := r.ub })
        (updRxn t (fun x => { x with lb := v })
          (updRxn t (fun x => { x with ub := v }) l))) = l := by
  refine updRxn_chain4 t _ _ _ _ l (fun x => rfl) (fun x => rfl) (fun x => rfl) hnd ?_
  intro x hx hxid
  have hxr : x = r := unique_by_id l hnd r x hr hx (by rw [hxid, hrid])
  subst hxr
  rfl

theorem taskFold_restore (fraction : ℚ) (ts : List String) :
    ∀ (s : Model) (h0 : List UndoOp),
      (s.reactions.map (fun r => r.id)).Nodup →
      ((ts.foldl (taskFoldStep fraction) (s, h0)).1.reactions.map (fun r => r.id)
          = s.reactions.map (fun r => r.id))
      ∧ (ts.foldl (taskFoldStep fraction) (s, h0)).1.genes = s.genes
      ∧ (ts.foldl (taskFoldStep fraction) (s, h0)).1.objective = s.objective
      ∧ (ts.foldl (taskFoldStep fraction) (s, h0)).1.extraConstraints = s.extraConstraints
      ∧ (ts.foldl (taskFoldStep fraction) (s, h0)).1.id = s.id
      ∧ ∃ pre, (ts.foldl (taskFoldStep fraction) (s, h0)).2 = pre ++ h0
          ∧ ∀ m : Model, m.reactions = (ts.foldl (taskFoldStep fraction) (s, h0)).1.reactions →
              rollback pre m = { m with reactions := s.reactions } := by
  induction ts with
  | nil =>
    intro s h0 _
    refine ⟨rfl, rfl, rfl, rfl, rfl, [], rfl, ?_⟩
    intro m hm
    have hm' : m.reactions = s.reactions := hm
    show m = { m with reactions := s.reactions }
    rw [← hm']
  | cons t ts ih =>
    intro s h0 hnd
    have hfold : (t :: ts).foldl (taskFoldStep fraction) (s, h0)
        = ts.foldl (taskFoldStep fraction) (taskFoldStep fraction (s, h0) t) :=
      List.foldl_cons _ _
    have hchar :
        taskFoldStep fraction (s, h0) t = (s, h0) ∨
        (∃ r, s.getRxn t = some r ∧ r ∈ s.reactions ∧ r.id = t ∧
          taskFoldStep fraction (s, h0) t
            = ({ s with
                  reactions := updRxn t (fun x => { x with lb := fraction }) s.reactions },
               UndoOp.setLb t r.lb :: h0)) ∨
        (∃ r, s.getRxn t = some r ∧ r ∈ s.reactions ∧ r.id = t ∧
          taskFoldStep fraction (s, h0) t
            = ({ s with
                  reactions := updRxn t (fun x => { x with lb := fraction })
                      (updRxn t (fun x => { x with ub := fraction }) s.reactions) },
               UndoOp.setUb t r.ub :: UndoOp.setLb t r.lb :: h0)) := by
      by_cases hhas : s.hasRxnId t = true
      · obtain ⟨r, hrs, hrid⟩ := getRxn_of_has s t hhas
        obtain ⟨hrmem, _⟩ := getRxn_mem s t r hrs
        by_cases hlb : (r.lb == fraction) = true
        · left
          simp only [taskFoldStep, if_pos hhas, setLowerBound, hrs, if_pos hlb]
        · by_cases hub : r.ub < fraction
          · right; right
            refine ⟨r, hrs, hrmem, hrid, ?_⟩
            simp only [taskFoldStep, if_pos hhas, setLowerBound, hrs, hlb,
              Bool.false_eq_true, if_false, if_pos hub]
          · right; left
            refine ⟨r, hrs, hrmem, hrid, ?_⟩
            simp only [taskFoldStep, if_pos hhas, setLowerBound, hrs, hlb,
              Bool.false_eq_true, if_false, if_neg hub]
      · left
        simp only [taskFoldStep]
        rw [if_neg hhas]
    rcases hchar with hA | hB | hC
    · rw [hfold, hA]
      exact ih s h0 hnd
    · obtain ⟨r, _, hrmem, hrid, hstep⟩ := hB
      rw [hfold, hstep]
      have hnd1 : ((updRxn t (fun x => { x with lb := fraction }) s.reactions).map
          (fun r => r.id)).Nodup := by
        rw [updRxn_map_id t (fun x => { x with lb := fraction }) s.reactions (fun x => rfl)]
        exact hnd
      obtain ⟨hids, hgen, hobj, hec, hid, pre2, hpre2, hroll⟩ :=
        ih ({ s with
              reactions := updRxn t (fun x => { x with lb := fraction }) s.reactions })
          (UndoOp.setLb t r.lb :: h0) hnd1
      refine ⟨?_, hgen, hobj, hec, hid, pre2 ++ [UndoOp.setLb t r.lb], ?_, ?_⟩
      · rw [hids]
        exact updRxn_map_id t (fun x => { x with lb := fraction }) s.reactions (fun x => rfl)
      · rw [hpre2, List.append_assoc]
        rfl
      · intro m hm
        rw [rollback_append, hroll m hm]
        have hrest := updRxn_restore_single t fraction s.reactions hnd r hrmem hrid
        show ({ m with
                reactions := updRxn t (fun x => { x with lb := r.lb })
                  (updRxn t (fun x => { x with lb := fraction }) s.reactions) } : Model)
          = { m with reactions := s.reactions }
        rw [hrest]
    · obtain ⟨r, _, hrmem, hrid, hstep⟩ := hC
      rw [hfold, hstep]
      have hnd1 : ((updRxn t (fun x => { x with lb := fraction })
          (updRxn t (fun x => { x with ub := fraction }) s.reactions)).map
          (fun r => r.id)).Nodup := by
        rw [updRxn_map_id t (fun x => { x with lb := fraction })
            (updRxn t (fun x => { x with ub := fraction }) s.reactions) (fun x => rfl)]
        rw [updRxn_map_id t (fun x => { x with ub := fraction }) s.reactions (fun x => rfl)]
        exact hnd
      obtain ⟨hids, hgen, hobj, hec, hid, pre2, hpre2, hroll⟩ :=
        ih ({ s with
              reactions := updRxn t (fun x => { x with lb := fraction })
                (updRxn t (fun x => { x with ub := fraction }) s.reactions) })
          (UndoOp.setUb t r.ub :: UndoOp.setLb t r.lb :: h0) hnd1
      refine ⟨?_, hgen, hobj, hec, hid,
        pre2 ++ [UndoOp.setUb t r.ub, UndoOp.setLb t r.lb], ?_, ?_⟩
      · rw [hids]
        rw [updRxn_map_id t (fun x => { x with lb := fraction })
            (updRxn t (fun x => { x with ub := fraction }) s.reactions) (fun x => rfl)]
        exact updRxn_map_id t (fun x => { x with ub := fraction }) s.reactions (fun x => rfl)
      · rw [hpre2, List.append_assoc]
        rfl
      · intro m hm
        rw [rollback_append, hroll m hm]
        have hrest := updRxn_restore_pair t fraction s.reactions hnd r hrmem hrid
        show ({ m with
                reactions := updRxn t (fun x => { x with lb := r.lb })
                  (updRxn t (fun x => { x with ub := r.ub })
                    (updRxn t (fun x => { x with lb := fraction })
                      (updRxn t (fun x => { x with ub := fraction }) s.reactions))) } : Model)
          = { m with reactions := s.reactions }
        rw [hrest]

theorem mergeStage_s_reactions (model bag : Model) (obj : String) (ft : Nat) :
    (mergeStage model bag obj ft).s.reactions
      = keptOf model bag obj ft ++ prunedOf model bag obj ft := rfl

theorem mergeStage_s_fields (model bag : Model) (obj : String) (ft : Nat) :
    (mergeStage model bag obj ft).s.objective = bag.objective
    ∧ (mergeStage model bag obj ft).s.extraConstraints = bag.extraConstraints
    ∧ (mergeStage model bag obj ft).s.id = bag.id :=
  ⟨rfl, rfl, rfl⟩

theorem kept_not_prunedIds (model bag : Model) (obj : String) (ft : Nat) :
    ∀ r ∈ keptOf model bag obj ft,
      ((prunedOf model bag obj ft).map (fun r => r.id)).contains r.id = false := by
  intro r hr
  cases hc : ((prunedOf model bag obj ft).map (fun r => r.id)).contains r.id with
  | false => rfl
  | true =>
  exfalso
  have hmem : r.id ∈ (prunedOf model bag obj ft).map (fun r => r.id) := by
    simpa using hc
  obtain ⟨p, hp, hpid⟩ := List.mem_map.1 hmem
  have hpfilter := List.of_mem_filter hp
  have : hasId (keptOf model bag obj ft) p.id = false := by
    simpa using hpfilter
  rw [hasId_false_iff] at this
  exact this r hr hpid.symm

theorem merge_rollback (model bag : Model) (obj : String) (ft : Nat) (m : Model)
    (hm : m.reactions = keptOf model bag obj ft ++ prunedOf model bag obj ft) :
    rollback (mergeStage model bag obj ft).hist m
      = { m with reactions := keptOf model bag obj ft ++ removedOf model bag obj ft,
                 genes := bag.genes } := by
  show rollback [.setGenes bag.genes, .subRxns ((prunedOf model bag obj ft).map (fun r => r.id)),
      .addRxns (removedOf model bag obj ft)] m = _
  rw [rollback_cons, rollback_cons, rollback_cons, rollback_nil]
  show ({ m with
          genes := bag.genes,
          reactions := (m.reactions.filter
              (fun r => !(((prunedOf model bag obj ft).map (fun r => r.id)).contains r.id)))
            ++ removedOf model bag obj ft } : Model) = _
  rw [hm, List.filter_append]
  have h1 : (keptOf model bag obj ft).filter
      (fun r => !(((prunedOf model bag obj ft).map (fun r => r.id)).contains r.id))
      = keptOf model bag obj ft := by
    rw [List.filter_eq_self]
    intro r hr
    rw [kept_not_prunedIds model bag obj ft r hr]
    rfl
  have h2 : (prunedOf model bag obj ft).filter
      (fun r => !(((prunedOf model bag obj ft).map (fun r => r.id)).contains r.id))
      = [] := by
    rw [List.filter_eq_nil_iff]
    intro p hp
    have : p.id ∈ (prunedOf model bag obj ft).map (fun r => r.id) :=
      List.mem_map_of_mem _ hp
    simp [this]
  rw [h1, h2, List.append_nil]

theorem merge_nodup (model bag : Model) (obj : String) (ft : Nat)
    (hbag : (bag.reactions.map (fun r => r.id)).Nodup)
    (hmodel : (model.reactions.map (fun r => r.id)).Nodup) :
    (((mergeStage model bag obj ft).s.reactions).map (fun r => r.id)).Nodup := by
  rw [mergeStage_s_reactions, List.map_append]
  have hkept : ((keptOf model bag obj ft).map (fun r => r.id)).Nodup :=
    ((List.filter_sublist _).map _).nodup hbag
  have hpruned : ((prunedOf model bag obj ft).map (fun r => r.id)).Nodup := by
    have hsub : List.Sublist (prunedOf model bag obj ft) model.reactions :=
      (List.filter_sublist _).trans (List.filter_sublist _)
    exact (hsub.map _).nodup hmodel
  refine hkept.append hpruned ?_
  intro a ha hb
  obtain ⟨r, hr, hrid⟩ := List.mem_map.1 ha
  obtain ⟨p, hp, hpid⟩ := List.mem_map.1 hb
  have hpfilter := List.of_mem_filter hp
  have hfalse : hasId (keptOf model bag obj ft) p.id = false := by simpa using hpfilter
  rw [hasId_false_iff] at hfalse
  exact hfalse r hr (by rw [hrid, ← hpid])

theorem kept_removed_perm (model bag : Model) (obj : String) (ft : Nat) :
    (keptOf model bag obj ft ++ removedOf model bag obj ft).Perm bag.reactions := by
  have h := List.filter_append_perm
    (fun r => ((removeIdsOf model bag obj ft).contains r.id)) bag.reactions
  exact (List.perm_append_comm).trans h

theorem mergeTask_restore (model bag : Model) (obj : String) (ft : Nat)
    (tasks : Option (List String)) (fraction : ℚ)
    (hbag : (bag.reactions.map (fun r => r.id)).Nodup)
    (hmodel : (model.reactions.map (fun r => r.id)).Nodup) :
    ∀ m : Model,
      m.reactions = (taskStage tasks fraction (mergeStage model bag obj ft).s).1.reactions →
      ((rollback ((taskStage tasks fraction (mergeStage model bag obj ft).s).2
          ++ (mergeStage model bag obj ft).hist) m).reactions).Perm bag.reactions
      ∧ (rollback ((taskStage tasks fraction (mergeStage model bag obj ft).s).2
          ++ (mergeStage model bag obj ft).hist) m).genes = bag.genes
      ∧ (rollback ((taskStage tasks fraction (mergeStage model bag obj ft).s).2
          ++ (mergeStage model bag obj ft).hist) m).objective = m.objective
      ∧ (rollback ((taskStage tasks fraction (mergeStage model bag obj ft).s).2
          ++ (mergeStage model bag obj ft).hist) m).extraConstraints = m.extraConstraints
      ∧ (rollback ((taskStage tasks fraction (mergeStage model bag obj ft).s).2
          ++ (mergeStage model bag obj ft).hist) m).id = m.id := by
  have hnd2 := merge_nodup model bag obj ft hbag hmodel
  intro m hm
  cases tasks with
  | none =>
    have hms : m.reactions = (mergeStage model bag obj ft).s.reactions := hm
    have hroll := merge_rollback model bag obj ft m
      (by rw [hms, mergeStage_s_reactions])
    show (rollback ([] ++ (mergeStage model bag obj ft).hist) m).reactions.Perm bag.reactions
      ∧ _ ∧ _ ∧ _ ∧ _
    rw [List.nil_append, hroll]
    exact ⟨kept_removed_perm model bag obj ft, rfl, rfl, rfl, rfl⟩
  | some ts =>
    obtain ⟨_, _, _, _, _, pre, hpre, hroll⟩ :=
      taskFold_restore fraction ts (mergeStage model bag obj ft).s [] hnd2
    have hpre' : (taskStage (some ts) fraction (mergeStage model bag obj ft).s).2 = pre := by
      show (ts.foldl (taskFoldStep fraction) ((mergeStage model bag obj ft).s, [])).2 = pre
      rw [hpre, List.append_nil]
    have hm' : m.reactions
        = (ts.foldl (taskFoldStep fraction) ((mergeStage model bag obj ft).s, [])).1.reactions :=
      hm
    have hrm := hroll m hm'
    rw [hpre', rollback_append, hrm]
    have hroll2 := merge_rollback model bag obj ft
      ({ m with reactions := (mergeStage model bag obj ft).s.reactions })
      (by rw [mergeStage_s_reactions])
    rw [hroll2]
    exact ⟨kept_removed_perm model bag obj ft, rfl, rfl, rfl, rfl⟩

theorem solvePhase_bag (o : Oracle) (s3 : Model) (h3 : List UndoOp) (origIds : List String)
    (obj : String) (fraction maxFraction : ℚ) (step : Step) :
    (solvePhase o s3 h3 origIds obj fraction maxFraction step).bag
      = rollback h3
          ({ s3 with
              extraConstraints := s3.extraConstraints
                ++ ((solvePhase o s3 h3 origIds obj fraction
                      maxFraction step).trace.constraintAdded.elim [] (fun c => [c])) }) := by
  simp only [solvePhase]
  split
  · rfl
  · split <;> rfl

theorem solvePhase_trace_basic (o : Oracle) (s3 : Model) (h3 : List UndoOp)
    (origIds : List String) (obj : String) (fraction maxFraction : ℚ) (step : Step) :
    (solvePhase o s3 h3 origIds obj fraction maxFraction step).trace.origIds = origIds
    ∧ (solvePhase o s3 h3 origIds obj fraction maxFraction step).trace.prevObjVal
        = some (slimOptimize o
            { s3 with objective := ⟨s3.objective.direction, [(obj, 1, -1)]⟩ })
    ∧ (solvePhase o s3 h3 origIds obj fraction maxFraction step).trace.constraintAdded
        = some (mkConstraint obj
            (slimOptimize o { s3 with objective := ⟨s3.objective.direction, [(obj, 1, -1)]⟩ })
            fraction maxFraction step) := by
  simp only [solvePhase]
  split
  · exact ⟨rfl, rfl, rfl⟩
  · split <;> exact ⟨rfl, rfl, rfl⟩

theorem solvePhase_finalLP (o : Oracle) (s3 : Model) (h3 : List UndoOp)
    (origIds : List String) (obj : String) (fraction maxFraction : ℚ) (step : Step)
    (lp : LinearProblem)
    (h : (solvePhase o s3 h3 origIds obj fraction maxFraction step).trace.finalLP = some lp) :
    lp.objective = ⟨Direction.min, pfbaCoeffs lp.reactions origIds⟩ := by
  simp only [solvePhase] at h
  split at h
  · exact absurd h (by simp)
  · split at h <;>
      (simp only [Option.some.injEq] at h; subst h; rfl)

theorem solvePhase_ok_solved (o : Oracle) (s3 : Model) (h3 : List UndoOp)
    (origIds : List String) (obj : String) (fraction maxFraction : ℚ) (step : Step) :
    ∀ S, (solvePhase o s3 h3 origIds obj fraction maxFraction step).result = Except.ok S →
      ∃ res, (solvePhase o s3 h3 origIds obj fraction maxFraction step).trace.solved = some res
        ∧ S = ((res.fluxes.filter (fun p => decide (epsActive < |p.2|))).map Prod.fst).toFinset
              \ origIds.toFinset := by
  simp only [solvePhase]
  split
  · intro S h
    exact absurd h (by simp)
  · split
    · intro S h
      exact absurd h (by simp)
    · intro S h
      simp only [Except.ok.injEq] at h
      exact ⟨_, rfl, h.symm⟩

theorem solvePhase_solved (o : Oracle) (s3 : Model) (h3 : List UndoOp)
    (origIds : List String) (obj : String) (fraction maxFraction : ℚ) (step : Step) :
    ∀ res, (solvePhase o s3 h3 origIds obj fraction maxFraction step).trace.solved = some res →
      res.status = SolverStatus.unbounded
      ∨ ((solvePhase o s3 h3 origIds obj fraction maxFraction step).result
            = Except.ok
              (((res.fluxes.filter (fun p => decide (epsActive < |p.2|))).map Prod.fst).toFinset
                \ origIds.toFinset)
          ∧ (solvePhase o s3 h3 origIds obj fraction maxFraction step).trace.warned
            = (res.status != SolverStatus.optimal)) := by
  simp only [solvePhase]
  split
  · intro res h
    exact absurd h (by simp)
  · split
    · rename_i heq
      intro res h
      simp only [Option.some.injEq] at h
      subst h
      exact Or.inl heq
    · intro res h
      simp only [Option.some.injEq] at h
      subst h
      exact Or.inr ⟨rfl, rfl⟩

theorem find_reactions_eq (o : Oracle) (model bag : Model) (tasks : Option (List String))
    (obj : String) (fraction maxFraction : ℚ) (step : Step) (ft : Nat) :
    find_reactions o model bag tasks obj fraction maxFraction step ft
      = if (taskStage tasks fraction (mergeStage model bag obj ft).s).1.hasRxnId obj then
          solvePhase o (taskStage tasks fraction (mergeStage model bag obj ft).s).1
            ((taskStage tasks fraction (mergeStage model bag obj ft).s).2
              ++ (mergeStage model bag obj ft).hist)
            (mergeStage model bag obj ft).origIds obj fraction maxFraction step
        else
          { result := Except.error "KeyError",
            bag := rollback ((taskStage tasks fraction (mergeStage model bag obj ft).s).2
                ++ (mergeStage model bag obj ft).hist)
              (taskStage tasks fraction (mergeStage model bag obj ft).s).1,
            trace := ⟨(mergeStage model bag obj ft).origIds, none, none, none, none, false⟩ } :=
  rfl

theorem taskStage_fields (tasks : Option (List String)) (fraction : ℚ) (s : Model)
    (hnd : (s.reactions.map (fun r => r.id)).Nodup) :
    (taskStage tasks fraction s).1.objective = s.objective
    ∧ (taskStage tasks fraction s).1.extraConstraints = s.extraConstraints
    ∧ (taskStage tasks fraction s).1.id = s.id := by
  cases tasks with
  | none => exact ⟨rfl, rfl, rfl⟩
  | some ts =>
    obtain ⟨_, _, hobj, hec, hid, _⟩ := taskFold_restore fraction ts s [] hnd
    exact ⟨hobj, hec, hid⟩

/-- C1 (amended): under the `with model:` block, `find_reactions` does restore the
reaction bag's reaction list (up to order), its genes, objective and id on exit;
but the raw `model.solver.add` constraint escapes the history manager, so the bag
comes back with the flux-band constraint (when one was added) appended to its
constraint list rather than with its original constraints. -/
theorem find_reactions_scoped_restore (o : Oracle) (model bag : Model)
    (tasks : Option (List String)) (obj : String) (fraction maxFraction : ℚ) (step : Step)
    (ft : Nat)
    (hbag : (bag.reactions.map (fun r => r.id)).Nodup)
    (hmodel : (model.reactions.map (fun r => r.id)).Nodup) :
    ((find_reactions o model bag tasks obj fraction maxFraction step ft).bag.reactions).Perm
        bag.reactions
    ∧ (find_reactions o model bag tasks obj fraction maxFraction step ft).bag.objective
        = bag.objective
    ∧ (find_reactions o model bag tasks obj fraction maxFraction step ft).bag.genes
        = bag.genes
    ∧ (find_reactions o model bag tasks obj fraction maxFraction step ft).bag.id = bag.id
    ∧ (find_reactions o model bag tasks obj fraction maxFraction step ft).bag.extraConstraints
        = bag.extraConstraints
          ++ ((find_reactions o model bag tasks obj fraction maxFraction
                step ft).trace.constraintAdded.elim [] (fun c => [c])) := by
  have hnd := merge_nodup model bag obj ft hbag hmodel
  obtain ⟨htsobj, htsec, htsid⟩ := taskStage_fields tasks fraction (mergeStage model bag obj ft).s hnd
  obtain ⟨hmsobj, hmsec, hmsid⟩ := mergeStage_s_fields model bag obj ft
  rw [find_reactions_eq]
  split
  · rw [solvePhase_bag]
    obtain ⟨h1, h2, h3o, h4, h5⟩ := mergeTask_restore model bag obj ft tasks fraction hbag hmodel
      { (taskStage tasks fraction (mergeStage model bag obj ft).s).1 with
          extraConstraints :=
            (taskStage tasks fraction (mergeStage model bag obj ft).s).1.extraConstraints
              ++ ((solvePhase o (taskStage tasks fraction (mergeStage model bag obj ft).s).1
                    ((taskStage tasks fraction (mergeStage model bag obj ft).s).2
                      ++ (mergeStage model bag obj ft).hist)
                    (mergeStage model bag obj ft).origIds obj fraction maxFraction
                    step).trace.constraintAdded.elim [] (fun c => [c])) } rfl
    refine ⟨h1, ?_, h2, ?_, ?_⟩
    · rw [h3o]
      exact htsobj.trans hmsobj
    · rw [h5]
      exact htsid.trans hmsid
    · rw [h4]
      exact congrArg (fun l => l ++ _) (htsec.trans hmsec)
  · obtain ⟨h1, h2, h3o, h4, h5⟩ := mergeTask_restore model bag obj ft tasks fraction hbag hmodel
      (taskStage tasks fraction (mergeStage model bag obj ft).s).1 rfl
    refine ⟨h1, ?_, h2, ?_, ?_⟩
    · rw [h3o]
      exact htsobj.trans hmsobj
    · rw [h5]
      exact htsid.trans hmsid
    · rw [h4]
      exact (htsec.trans hmsec).trans (List.append_nil bag.extraConstraints).symm

/-- C1 counterexample: a run of `find_reactions` on a bag with no extra solver
constraints hands the bag back carrying the flux-band constraint, so the bag is
not returned to its entry state. -/
theorem find_reactions_bag_constraints_changed :
    (find_reactions infOracle emptyModel demoBag none "bio" 1 1 Step.one 1).bag.extraConstraints
      = [⟨"bio", none, none⟩]
    ∧ demoBag.extraConstraints = [] :=
  ⟨rfl, rfl⟩

theorem find_reactions_scoped_restore_witness :
    ((find_reactions infOracle emptyModel demoBag none "bio" 1 1 Step.one 1).bag.reactions).Perm
        demoBag.reactions
    ∧ (find_reactions infOracle emptyModel demoBag none "bio" 1 1 Step.one 1).bag.objective
        = demoBag.objective
    ∧ (find_reactions infOracle emptyModel demoBag none "bio" 1 1 Step.one 1).bag.genes
        = demoBag.genes
    ∧ (find_reactions infOracle emptyModel demoBag none "bio" 1 1 Step.one 1).bag.id = demoBag.id
    ∧ (find_reactions infOracle emptyModel demoBag none "bio" 1 1 Step.one 1).bag.extraConstraints
        = demoBag.extraConstraints
          ++ ((find_reactions infOracle emptyModel demoBag none "bio" 1 1
                Step.one 1).trace.constraintAdded.elim [] (fun c => [c])) :=
  find_reactions_scoped_restore infOracle emptyModel demoBag none "bio" 1 1 Step.one 1
    (by decide) (by decide)

theorem mergeStage_origIds (model bag : Model) (obj : String) (ft : Nat) :
    (mergeStage model bag obj ft).origIds = origIdsOf model obj ft :=
  rfl

theorem origIdsOf_toFinset (model : Model) (obj : String) (ft : Nat) :
    (origIdsOf model obj ft).toFinset
      = if ft = 3 then (model.reactions.map (fun r => r.id)).toFinset
        else (model.reactions.map (fun r => r.id)).toFinset \ {obj} := by
  by_cases h : ft = 3
  · subst h
    simp [origIdsOf]
  · rw [if_neg h]
    have hft : (ft != 3) = true := by simpa using h
    ext x
    simp only [origIdsOf, hft, Bool.and_true, List.mem_toFinset, List.mem_map,
      List.mem_filter, Finset.mem_sdiff, Finset.mem_singleton, Bool.not_eq_true',
      beq_eq_false_iff_ne, ne_eq]
    constructor
    · rintro ⟨r, ⟨hr, hne⟩, hx⟩
      exact ⟨⟨r, hr, hx⟩, hx ▸ hne⟩
    · rintro ⟨⟨r, hr, hx⟩, hne⟩
      exact ⟨r, ⟨hr, fun hc => hne (hx ▸ hc)⟩, hx⟩

/-- C3: on success, `find_reactions` returns exactly the ids of reactions whose
solved net flux exceeds 1e-6 in absolute value, minus the original model's
reaction ids (the objective id not counting as original unless file_type is 3);
in particular no original id is ever returned. -/
theorem find_reactions_result_spec (o : Oracle) (model bag : Model)
    (tasks : Option (List String)) (obj : String) (fraction maxFraction : ℚ) (step : Step)
    (ft : Nat) (S : Finset String) (res : SolverOutput)
    (hok : (find_reactions o model bag tasks obj fraction maxFraction step ft).result
        = Except.ok S)
    (hres : (find_reactions o model bag tasks obj fraction maxFraction step ft).trace.solved
        = some res) :
    S = ((res.fluxes.filter (fun p => decide (epsActive < |p.2|))).map Prod.fst).toFinset
        \ (if ft = 3 then (model.reactions.map (fun r => r.id)).toFinset
           else (model.reactions.map (fun r => r.id)).toFinset \ {obj})
    ∧ ∀ i ∈ (if ft = 3 then (model.reactions.map (fun r => r.id)).toFinset
           else (model.reactions.map (fun r => r.id)).toFinset \ {obj}), i ∉ S := by
  rw [find_reactions_eq] at hok hres
  split at hok
  · rename_i hif
    rw [if_pos hif] at hres
    obtain ⟨res', hres', hS⟩ := solvePhase_ok_solved o _ _ _ obj fraction maxFraction step S hok
    rw [hres'] at hres
    injection hres with hres
    subst hres
    rw [mergeStage_origIds, origIdsOf_toFinset] at hS
    refine ⟨hS, ?_⟩
    intro i hi hiS
    rw [hS] at hiS
    exact (Finset.mem_sdiff.mp hiS).2 hi
  · exact Except.noConfusion hok

theorem find_reactions_result_spec_witness :
    (({"bio"} : Finset String)
      = (((⟨SolverStatus.optimal, 7, [("bio", 7)]⟩ : SolverOutput).fluxes.filter
            (fun p => decide (epsActive < |p.2|))).map Prod.fst).toFinset
        \ (if (1 : Nat) = 3 then (emptyModel.reactions.map (fun r => r.id)).toFinset
           else (emptyModel.reactions.map (fun r => r.id)).toFinset \ {"bio"}))
    ∧ ∀ i ∈ (if (1 : Nat) = 3 then (emptyModel.reactions.map (fun r => r.id)).toFinset
           else (emptyModel.reactions.map (fun r => r.id)).toFinset \ {"bio"}),
        i ∉ ({"bio"} : Finset String) :=
  find_reactions_result_spec okOracle emptyModel demoBag none "bio" 1 1 Step.one 1
    {"bio"} ⟨SolverStatus.optimal, 7, [("bio", 7)]⟩ (by decide) (by decide)

/-- C4: once the unconstrained optimum V of the objective reaction is known, the
flux band added constrains the objective reaction to [V * fraction, V * max_fraction]
on step 1 and to [V * max_fraction, V] on step 2, and the problem then solved
minimizes the sum of forward and reverse variables weighted zero on the original
model's reaction ids and one elsewhere. -/
theorem find_reactions_band_and_pfba (o : Oracle) (model bag : Model)
    (tasks : Option (List String)) (obj : String) (fraction maxFraction : ℚ) (step : Step)
    (ft : Nat) (V : ℚ) (lp : LinearProblem)
    (hV : (find_reactions o model bag tasks obj fraction maxFraction step ft).trace.prevObjVal
        = some (some V))
    (hlp : (find_reactions o model bag tasks obj fraction maxFraction step ft).trace.finalLP
        = some lp) :
    (find_reactions o model bag tasks obj fraction maxFraction step ft).trace.constraintAdded
      = some (match step with
          | Step.one => ⟨obj, some (V * fraction), some (V * maxFraction)⟩
          | Step.two => ⟨obj, some (V * maxFraction), some V⟩)
    ∧ lp.objective.direction = Direction.min
    ∧ lp.objective.coeffs
        = lp.reactions.map (fun r =>
            (r.id, if (origIdsOf model obj ft).contains r.id then ((0 : ℚ), (0 : ℚ))
              else (1, 1))) := by
  rw [find_reactions_eq] at hV hlp ⊢
  split at hV
  · rename_i hif
    rw [if_pos hif] at hlp ⊢
    obtain ⟨-, hprev, hca⟩ := solvePhase_trace_basic o
      (taskStage tasks fraction (mergeStage model bag obj ft).s).1
      ((taskStage tasks fraction (mergeStage model bag obj ft).s).2
        ++ (mergeStage model bag obj ft).hist)
      (mergeStage model bag obj ft).origIds obj fraction maxFraction step
    rw [hprev] at hV
    injection hV with hV
    rw [hV] at hca
    have hobj := solvePhase_finalLP o _ _ _ obj fraction maxFraction step lp hlp
    refine ⟨?_, ?_, ?_⟩
    · rw [hca]
      cases step <;> rfl
    · rw [hobj]
    · rw [hobj]
      rfl
  · exact Option.noConfusion hV

theorem find_reactions_band_and_pfba_witness :
    (find_reactions okOracle emptyModel demoBag none "bio" 1 1 Step.one 1).trace.constraintAdded
      = some ⟨"bio", some (7 * 1), some (7 * 1)⟩
    ∧ (⟨[bioRxnUniv], [⟨"bio", some (7 * 1), some (7 * 1)⟩],
          ⟨Direction.min, [("bio", 1, 1)]⟩⟩ : LinearProblem).objective.direction = Direction.min
    ∧ (⟨[bioRxnUniv], [⟨"bio", some (7 * 1), some (7 * 1)⟩],
          ⟨Direction.min, [("bio", 1, 1)]⟩⟩ : LinearProblem).objective.coeffs
        = (⟨[bioRxnUniv], [⟨"bio", some (7 * 1), some (7 * 1)⟩],
            ⟨Direction.min, [("bio", 1, 1)]⟩⟩ : LinearProblem).reactions.map (fun r =>
            (r.id, if (origIdsOf emptyModel "bio" 1).contains r.id then ((0 : ℚ), (0 : ℚ))
              else (1, 1))) :=
  find_reactions_band_and_pfba okOracle emptyModel demoBag none "bio" 1 1 Step.one 1 7
    ⟨[bioRxnUniv], [⟨"bio", some (7 * 1), some (7 * 1)⟩], ⟨Direction.min, [("bio", 1, 1)]⟩⟩
    rfl rfl

/-- C2 (amended): an infeasible solve does not surface an error to the caller.
cobra's optimize with raise-error false only warns when the status is in the
has-primals set, which includes infeasible, so `find_reactions` still returns an
ok set of ids computed from whatever primal values the solver reports (possibly
the empty set), with only a UserWarning emitted. -/
theorem find_reactions_infeasible_warns (o : Oracle) (model bag : Model)
    (tasks : Option (List String)) (obj : String) (fraction maxFraction : ℚ) (step : Step)
    (ft : Nat) (res : SolverOutput)
    (hres : (find_reactions o model bag tasks obj fraction maxFraction step ft).trace.solved
        = some res)
    (hst : res.status = SolverStatus.infeasible) :
    (find_reactions o model bag tasks obj fraction maxFraction step ft).result
      = Except.ok
          (((res.fluxes.filter (fun p => decide (epsActive < |p.2|))).map Prod.fst).toFinset
            \ ((find_reactions o model bag tasks obj fraction maxFraction
                step ft).trace.origIds).toFinset)
    ∧ (find_reactions o model bag tasks obj fraction maxFraction step ft).trace.warned
        = true := by
  rw [find_reactions_eq] at hres ⊢
  split at hres
  · rename_i hif
    rw [if_pos hif]
    rcases solvePhase_solved o _ _ _ obj fraction maxFraction step res hres with hub | ⟨hok, hw⟩
    · rw [hst] at hub
      exact SolverStatus.noConfusion hub
    · constructor
      · obtain ⟨ho, -, -⟩ := solvePhase_trace_basic o
          (taskStage tasks fraction (mergeStage model bag obj ft).s).1
          ((taskStage tasks fraction (mergeStage model bag obj ft).s).2
            ++ (mergeStage model bag obj ft).hist)
          (mergeStage model bag obj ft).origIds obj fraction maxFraction step
        rw [ho]
        exact hok
      · rw [hw, hst]
        rfl
  · exact Option.noConfusion hres

/-- C2 counterexample: with an always-infeasible solver, `find_reactions`
returns `Except.ok ∅` rather than an error: the infeasibility is swallowed. -/
theorem find_reactions_infeasible_returns_ok :
    (find_reactions infOracle emptyModel demoBag none "bio" 1 1 Step.one 1).result
      = Except.ok (∅ : Finset String)
    ∧ (find_reactions infOracle emptyModel demoBag none "bio" 1 1 Step.one 1).trace.solved
      = some ⟨SolverStatus.infeasible, 0, [("bio", 0)]⟩ :=
  ⟨by decide, by decide⟩

theorem find_reactions_infeasible_warns_witness :
    (find_reactions infOracle emptyModel demoBag none "bio" 1 1 Step.one 1).result
      = Except.ok
          ((((⟨SolverStatus.infeasible, 0, [("bio", 0)]⟩ : SolverOutput).fluxes.filter
              (fun p => decide (epsActive < |p.2|))).map Prod.fst).toFinset
            \ ((find_reactions infOracle emptyModel demoBag none "bio" 1 1
                Step.one 1).trace.origIds).toFinset)
    ∧ (find_reactions infOracle emptyModel demoBag none "bio" 1 1 Step.one 1).trace.warned
        = true :=
  find_reactions_infeasible_warns infOracle emptyModel demoBag none "bio" 1 1 Step.one 1
    ⟨SolverStatus.infeasible, 0, [("bio", 0)]⟩ (by decide) rfl
